import Mathlib

/-!
Shallow embedding of the stark-mlwe core (Poseidon-backed DEEP-ALI / DEEP-FRI
pipeline, high-arity Merkle commitments, Fiat-Shamir transcript) and proofs of
the specification claims C1..C10.

Conventions of the embedding:
* The ~256-bit prime field `ark_pallas::Fr` is embedded as an arbitrary
  decidable field `K`; all embedded functions are polymorphic in `K` and
  witnesses instantiate `K` with small prime fields such as `ZMod 101`.
* Poseidon hashing is opaque to every claim, so hash functions are taken as
  explicit function parameters (`h : String → List K → K` for the tagged
  sponge hash of `deep_ali/src/fri.rs`, `DsLabel`-indexed hashes for the
  merkle crate, a state permutation for the transcript).  Theorems quantify
  over these parameters.
* Rust panics (asserts, `expect`, integer division by zero, out-of-range
  indexing) are modelled by `Option`/`VOut` results: `none` / `.panicked`
  means the Rust code would abort rather than return.
* Unbounded `loop`s and `while` loops are modelled with explicit fuel;
  exhausting the fuel (`none`) models divergence.
-/

set_option maxRecDepth 8000

instance fact_prime_5 : Fact (Nat.Prime 5) := ⟨by norm_num⟩

instance fact_prime_101 : Fact (Nat.Prime 101) := ⟨by norm_num⟩

section Embedding

variable {K : Type} [Field K] [DecidableEq K]

/-- Partial field inverse mirroring ark-ff `Field::inverse`, which returns
`None` exactly on zero (callers `.expect(..)`, i.e. panic, on `None`). -/
def finv? (x : K) : Option K :=
  if x = 0 then none else some x⁻¹

/-- Sequence a list of optional values; `none` if any entry is `none`. -/
def collectSome {α : Type} : List (Option α) → Option (List α)
  | [] => some []
  | none :: _ => none
  | some a :: rest => (collectSome rest).map (a :: ·)

/-- Rust `usize::next_power_of_two`: the least power of two `≥ n` (1 for 0). -/
def next_power_of_two (n : Nat) : Nat := 2 ^ Nat.clog 2 n

/-- Element-wise walk behind `chunksOf`: `acc` is the open chunk (in order),
`k` the room left in it before it is emitted. -/
def chunks_go {α : Type} (n : Nat) : List α → List α → Nat → List (List α)
  | [], acc, _ => [acc]
  | x :: xs, acc, 0 => acc :: chunks_go n xs [x] (n - 1)
  | x :: xs, acc, k + 1 => chunks_go n xs (acc ++ [x]) k

/-- Rust `slice::chunks(n)`: split into consecutive chunks of length `n`, the
last chunk possibly shorter (the equation
`chunksOf n (x :: xs) = (x :: xs).take n :: chunksOf n ((x :: xs).drop n)`
is proved below as `chunksOf_cons`).  `chunks(0)` panics in Rust; the `n = 0`
case is never reached by the embedded callers (guarded by their arity
checks). -/
def chunksOf {α : Type} (n : Nat) : List α → List (List α)
  | [] => []
  | x :: xs => if n = 0 then [] else chunks_go n xs [x] (n - 1)

/-- Little-endian byte list to natural number (`from_le_bytes` semantics). -/
def nat_of_le_bytes (bs : List Nat) : Nat :=
  bs.foldr (fun b acc => b % 256 + 256 * acc) 0

/-- `F::from_le_bytes_mod_order` on a byte list. -/
def le_bytes_to_field (bs : List Nat) : K := (nat_of_le_bytes bs : K)

/-- `u64::to_le_bytes` as a list of 8 bytes. -/
def u64_le_bytes (n : Nat) : List Nat := (List.range 8).map (fun k => n / 256 ^ k % 256)

/-! ## deep_ali/src/lib.rs -/

/-- `is_in_domain`: `z^n == 1`. -/
def is_in_domain (z : K) (n : Nat) : Bool := z ^ n == 1

/-- `zh_at`: vanishing polynomial `z^n - 1`. -/
def zh_at (z : K) (n : Nat) : K := z ^ n - 1

/-- `lagrange_eval_on_h`: barycentric evaluation at `z` of the polynomial with
values `values` on `H = ⟨ω⟩`; on-grid lookup when `z ∈ H`; `none` models the
panics (`assert!`, `expect`). -/
def lagrange_eval_on_h (values : List K) (z omega : K) : Option K :=
  let n := values.length
  if n = 0 then none
  else if is_in_domain z n then
    match (List.range n).find? (fun j => z == omega ^ j) with
    | some j => some (values.getD j 0)
    | none => none
  else do
    let nInv ← finv? (n : K)
    let terms ← collectSome ((List.range n).map
      (fun j => (finv? (z - omega ^ j)).map
        (fun inv => values.getD j 0 * omega ^ j * inv)))
    some (zh_at z n * nInv * terms.sum)

/-- Length check for the optional blinding vector. -/
def opt_len_ok {α : Type} (rOpt : Option (List α)) (n : Nat) : Bool :=
  match rOpt with
  | some r => r.length == n
  | none => true

/-- The evaluations of `Φ̃ = A·S + E − T (+ β·R)` on `H`. -/
def phi_eval_list (a s e t : List K) (rOpt : Option (List K)) (beta : K) : List K :=
  (List.range a.length).map (fun i =>
    let base := a.getD i 0 * s.getD i 0 + e.getD i 0 - t.getD i 0
    match rOpt with
    | some r => base + beta * r.getD i 0
    | none => base)

/-- `deep_ali_merge_evals_blinded`: returns `(f₀, z, c*)` with
`f₀(ω^j) = Φ̃(ω^j)/(ω^j − z)` and `c* = Φ̃(z)/Z_H(z)`; `none` models the
asserts (`n > 1`, length equality, `z ∉ H`) and `expect`s. -/
def deep_ali_merge_evals_blinded (a s e t : List K) (rOpt : Option (List K))
    (beta : K) (omega z : K) : Option (List K × K × K) :=
  let n := a.length
  if n ≤ 1 then none
  else if s.length ≠ n ∨ e.length ≠ n ∨ t.length ≠ n then none
  else if ¬ opt_len_ok rOpt n then none
  else if is_in_domain z n then none
  else do
    let phi := phi_eval_list a s e t rOpt beta
    let phiZ ← lagrange_eval_on_h phi z omega
    let zhInv ← finv? (zh_at z n)
    let f0 ← collectSome ((List.range n).map
      (fun j => (finv? (omega ^ j - z)).map (fun inv => phi.getD j 0 * inv)))
    some (f0, z, phiZ * zhInv)

/-- `deep_ali_merge_evals` (no blinding). -/
def deep_ali_merge_evals (a s e t : List K) (omega z : K) : Option (List K × K × K) :=
  deep_ali_merge_evals_blinded a s e t none 0 omega z

/-! ## deep_ali/src/fri.rs: sampling, folding, cp layer, local equation -/

/-- The rejection `loop` of `fri_sample_z_ell` with the `StdRng` output
modelled as a candidate stream and explicit fuel.  The Rust loop has no retry
budget: it returns the first candidate `c` with `c^domainSize ≠ 1` and
otherwise retries forever; `none` models a run that has not returned within
`fuel` iterations. -/
def fri_sample_z_loop (stream : Nat → K) (domainSize : Nat) : Nat → Nat → Option K
  | 0, _ => none
  | fuel + 1, k =>
    let cand := stream k
    if cand ^ domainSize ≠ 1 then some cand
    else fri_sample_z_loop stream domainSize fuel (k + 1)

/-- `fri_sample_z_ell`: derives the RNG seed by hashing
`(seed_z, level, domain_size)` under tag `"FRI/z/l"`, then runs the rejection
loop on the stream keyed by that seed. -/
def fri_sample_z_ell (h : String → List K → K) (stream : K → Nat → K)
    (seedZ level domainSize fuel : Nat) : Option K :=
  let fused := h "FRI/z/l" [(seedZ : K), (level : K), (domainSize : K)]
  fri_sample_z_loop (stream fused) domainSize fuel 0

/-- `Σ_{t < m} f[b·m+t]·z^t`, the bucket accumulation shared by
`fri_fold_layer` and `compute_cp_layer`. -/
def bucketFold (f : List K) (z : K) (m b : Nat) : K :=
  (List.range m).foldl (fun acc t => acc + f.getD (b * m + t) 0 * z ^ t) 0

/-- `fri_fold_layer`; `none` models the asserts (`m ≥ 2`, divisibility). -/
def fri_fold_layer (f : List K) (z : K) (m : Nat) : Option (List K) :=
  if m < 2 then none
  else if f.length % m ≠ 0 then none
  else some ((List.range (f.length / m)).map (fun b => bucketFold f z m b))

/-- `compute_cp_layer`: `cp[i] = (Σ_t f[b·m+t]·z^t − f_{ℓ+1}[b]) / (z − ω^i)`
with `b = i / m`; `none` models the asserts and the `expect("z not in H_l")`
on a vanishing denominator. -/
def compute_cp_layer (f fNext : List K) (z : K) (m : Nat) (omega : K) :
    Option (List K) :=
  if m = 0 then none
  else if f.length % m ≠ 0 then none
  else if fNext.length ≠ f.length / m then none
  else
    collectSome ((List.range f.length).map (fun i =>
      (finv? (z - omega ^ i)).map
        (fun inv => (bucketFold f z m (i / m) - fNext.getD (i / m) 0) * inv)))

/-- `build_combined_layer` pairs `(f, cp)` positionwise. -/
structure CombinedLeaf (K : Type) where
  f : K
  cp : K
deriving DecidableEq

/-- The algebraic block of `verify_local_check_with_openings` (the lines after
all Merkle checks): gather the bucket values `fs` in canonical order, compute
`rhs = Σ_t fs[t]·z^t` and `w_i = ω^(i mod n_layer)`, and test
`cp_i·(z − w_i) + f_parent == rhs`. -/
def fri_local_equation (fs : List K) (cpI parentF z : K) (m : Nat) (omega : K)
    (nLayer i : Nat) : Bool :=
  let rhs := (List.range m).foldl (fun acc t => acc + fs.getD t 0 * z ^ t) 0
  let wI := omega ^ (i % nLayer)
  cpI * (z - wI) + parentF == rhs

/-! ## deep_ali/src/fri.rs: arity-2 Poseidon Merkle -/

/-- `mt_leaf_hash`: leaf digest of a combined `(f, cp)` leaf. -/
def mt_leaf_hash (h : String → List K → K) (leaf : CombinedLeaf K) : K :=
  h "MT/leaf" [leaf.f, leaf.cp]

/-- `mt_node_hash`: internal node digest with the level baked into the tag. -/
def mt_node_hash (h : String → List K → K) (level : Nat) (l r : K) : K :=
  h ("MT/node/arity=2/level=" ++ toString level) [l, r]

/-- The `while cur.len() > 1` halving chain of `PoseidonMerkle::build`,
with explicit fuel (`none` models a run that does not reach a single node). -/
def pm_chain (h : String → List K → K) : Nat → Nat → List K → Option (List K)
  | 0, _, _ => none
  | fuel + 1, level, cur =>
    if cur.length ≤ 1 then some cur
    else pm_chain h fuel (level + 1)
      ((List.range (cur.length / 2)).map
        (fun k => mt_node_hash h level (cur.getD (2 * k) 0) (cur.getD (2 * k + 1) 0)))

/-- The root computed by `PoseidonMerkle::build`: pad the leaf-hash level with
the zero-pair digest up to the next power of two, then hash pairwise up to a
single node.  `none` models the `assert!(!leaves.is_empty())`. -/
def pm_build_root (h : String → List K → K) (leaves : List (CombinedLeaf K)) :
    Option K :=
  if leaves.length = 0 then none
  else
    let n := leaves.length
    let nPow2 := next_power_of_two n
    let zeroHash := mt_leaf_hash h ⟨0, 0⟩
    let level0 := (List.range nPow2).map
      (fun i => if i < n then mt_leaf_hash h (leaves.getD i ⟨0, 0⟩) else zeroHash)
    (pm_chain h nPow2 0 level0).map (fun top => top.headD 0)

/-- `MerkleProof` of the arity-2 tree: siblings bottom-up with directions
(`true` = the running node is the right child). -/
structure MerkleProofA2 (K : Type) where
  siblings : List K
  dirs : List Bool
  leafIndex : Nat
deriving DecidableEq

/-- The sibling-combining loop of `PoseidonMerkle::verify_leaf`. -/
def pm_fold_path (h : String → List K → K) : List (K × Bool) → Nat → K → K
  | [], _, cur => cur
  | (sib, isRight) :: rest, level, cur =>
    pm_fold_path h rest (level + 1)
      (if isRight then mt_node_hash h level sib cur else mt_node_hash h level cur sib)

/-- `PoseidonMerkle::verify_leaf` (the `n_leaves_pow2` argument is unused by
the source body and omitted here). -/
def pm_verify_leaf (h : String → List K → K) (root : K) (leaf : CombinedLeaf K)
    (proof : MerkleProofA2 K) : Bool :=
  pm_fold_path h (proof.siblings.zip proof.dirs) 0 (mt_leaf_hash h leaf) == root

/-- `CombinedPoseidonCommitment` as consumed by the verifier: a root plus the
padded leaf count. -/
structure CombinedCommit (K : Type) where
  root : K
  nLeavesPow2 : Nat

/-- `CombinedPoseidonCommitment::verify`. -/
def combined_verify (h : String → List K → K) (c : CombinedCommit K) (i : Nat)
    (value : CombinedLeaf K) (proof : MerkleProofA2 K) : Bool :=
  proof.leafIndex == i && pm_verify_leaf h c.root value proof

/-- The canonical-order gather of bucket values in
`verify_local_check_with_openings`: start from `vec![0; m]`, write each
neighbor at `j − base`, reject out-of-bucket entries.  (`j < base` underflows
in Rust; the wrapped value is `≥ m`, hence also a rejection.) -/
def gather_fs (base m : Nat) : List (Nat × CombinedLeaf K) → List K → Option (List K)
  | [], fs => some fs
  | (j, leafJ) :: rest, fs =>
    if j < base ∨ m ≤ j - base then none
    else gather_fs base m rest (fs.set (j - base) leafJ.f)

/-- `verify_local_check_with_openings` (the `#[cfg(not(test))]` behaviour:
every failed check yields `false`).  `none` models the usize divisions by zero
when `m = 0` or `n_layer = 0`. -/
def verify_local_check_with_openings (h : String → List K → K)
    (childC parentC : CombinedCommit K) (i : Nat) (leafI : CombinedLeaf K)
    (proofI : MerkleProofA2 K) (neighborIdx : List Nat)
    (neighborLeaves : List (CombinedLeaf K)) (neighborProofs : List (MerkleProofA2 K))
    (parentIdx : Nat) (parentLeaf : CombinedLeaf K) (parentProof : MerkleProofA2 K)
    (z : K) (m : Nat) (omega : K) (nLayer : Nat) : Option Bool :=
  if ¬ combined_verify h childC i leafI proofI then some false
  else if neighborIdx.length ≠ neighborLeaves.length ∨
      neighborIdx.length ≠ neighborProofs.length then some false
  else if ¬ ((neighborIdx.zip (neighborLeaves.zip neighborProofs)).all
      (fun x => x.2.2.leafIndex == x.1 && combined_verify h childC x.1 x.2.1 x.2.2))
    then some false
  else if ¬ combined_verify h parentC parentIdx parentLeaf parentProof then some false
  else if m = 0 then none
  else
    let b := i / m
    if parentIdx ≠ b then some false
    else
      let base := b * m
      match gather_fs base m (neighborIdx.zip neighborLeaves) (List.replicate m 0) with
      | none => some false
      | some fs0 =>
        if i < base ∨ m ≤ i - base then some false
        else
          let fs := fs0.set (i - base) leafI.f
          if nLayer = 0 then none
          else
            some (fri_local_equation fs leafI.cp parentLeaf.f z m omega nLayer i)

/-! ## deep_ali/src/fri.rs: FS helpers and the query verifier -/

/-- `fs_seed_from_roots`. -/
def fs_seed_from_roots (h : String → List K → K) (roots : List K) : K :=
  h "FRI/seed" roots

/-- `index_seed`. -/
def index_seed (h : String → List K → K) (rootsSeed : K) (ell q : Nat) : K :=
  h "FRI/index" [rootsSeed, (ell : K), (q : K)]

/-- `index_from_seed`: first `u64` of the RNG keyed by the field seed, masked
with `n_pow2 − 1` (the callers always pass a power of two). -/
def index_from_seed (rngU64 : K → Nat) (seedF : K) (nPow2 : Nat) : Nat :=
  Nat.land (rngU64 seedF) (nPow2 - 1)

/-- The verifier's derivation of the query index for layer `ell` (sample,
reseed once if out of range, then mask with `n − 1`). -/
def derived_index (h : String → List K → K) (rngU64 : K → Nat) (rootsSeed : K)
    (ell q n : Nat) : Nat :=
  let nPow2 := next_power_of_two n
  let seed := index_seed h rootsSeed ell q
  let i := index_from_seed rngU64 seed nPow2
  if i < n then i
  else
    let reseed := h "FRI/index" [seed, (1 : K)]
    let i2 := index_from_seed rngU64 reseed nPow2
    if i2 < n then i2 else Nat.land i2 (n - 1)

/-- `LayerOpenings`. -/
structure LayerOpenings (K : Type) where
  i : Nat
  leafI : CombinedLeaf K
  proofI : MerkleProofA2 K
  neighborIdx : List Nat
  neighborLeaves : List (CombinedLeaf K)
  neighborProofs : List (MerkleProofA2 K)
  parentIdx : Nat
  parentLeaf : CombinedLeaf K
  parentProof : MerkleProofA2 K

/-- `FriQueryOpenings`. -/
structure FriQueryOpenings (K : Type) where
  perLayer : List (LayerOpenings K)
  finalLeaf : CombinedLeaf K
  finalProof : MerkleProofA2 K

/-- Placeholder openings used only behind a length guard. -/
def dummyLayerOpenings : LayerOpenings K :=
  ⟨0, ⟨0, 0⟩, ⟨[], [], 0⟩, [], [], [], 0, ⟨0, 0⟩, ⟨[], [], 0⟩⟩

/-- `layer_sizes_from_schedule`; `none` models the divisibility asserts
(including the `% 0` panic on a zero fold factor). -/
def layer_sizes_from_schedule (n0 : Nat) : List Nat → Option (List Nat)
  | [] => some [n0]
  | m :: rest =>
    if m = 0 ∨ n0 % m ≠ 0 then none
    else (layer_sizes_from_schedule (n0 / m) rest).map (n0 :: ·)

/-- `layer_domains_from_schedule`, with the radix-2 generator for each size
supplied by the `groupGen` oracle. -/
def layer_domains (groupGen : Nat → K) (sizes : List Nat) (l : Nat) :
    List (Nat × K) :=
  (List.range l).map (fun ell => (sizes.getD ell 0, groupGen (sizes.getD ell 0)))

/-- The per-layer body of the query loop in `fri_verify_queries`. -/
def fri_check_query_layer (h : String → List K → K) (rngU64 : K → Nat)
    (scheduleM n nNext : Nat) (z omegaL : K) (nLayer : Nat) (rootL rootLp1 : K)
    (rootsSeed : K) (ell q : Nat) (lay : LayerOpenings K) : Option Bool :=
  let nPow2 := next_power_of_two n
  let derivedI := derived_index h rngU64 rootsSeed ell q n
  if lay.proofI.leafIndex ≠ derivedI ∨ lay.i ≠ derivedI then some false
  else if ¬ pm_verify_leaf h rootL lay.leafI lay.proofI then some false
  else if ¬ ((lay.neighborIdx.zip (lay.neighborLeaves.zip lay.neighborProofs)).all
      (fun x => x.2.2.leafIndex == x.1 && pm_verify_leaf h rootL x.2.1 x.2.2))
    then some false
  else if scheduleM = 0 then none
  else
    let expectedParent := derivedI / scheduleM
    if lay.parentIdx ≠ expectedParent then some false
    else if ¬ pm_verify_leaf h rootLp1 lay.parentLeaf lay.parentProof then some false
    else
      verify_local_check_with_openings h ⟨rootL, nPow2⟩
        ⟨rootLp1, next_power_of_two nNext⟩ derivedI lay.leafI lay.proofI
        lay.neighborIdx lay.neighborLeaves lay.neighborProofs expectedParent
        lay.parentLeaf lay.parentProof z scheduleM omegaL nLayer

/-- Loop over the layers `ell ∈ 0..l` for one query. -/
def fri_check_layers (h : String → List K → K) (rngU64 : K → Nat)
    (schedule sizes : List Nat) (zLayers : List K) (domains : List (Nat × K))
    (roots : List K) (rootsSeed : K) (q : Nat) (qopen : FriQueryOpenings K) :
    List Nat → Option Bool
  | [] => some true
  | ell :: rest => do
    let dom := domains.getD ell (0, 1)
    let ok ← fri_check_query_layer h rngU64 (schedule.getD ell 0)
      (sizes.getD ell 0) (sizes.getD (ell + 1) 0) (zLayers.getD ell 0) dom.2
      dom.1 (roots.getD ell 0) (roots.getD (ell + 1) 0) rootsSeed ell q
      (qopen.perLayer.getD ell dummyLayerOpenings)
    if ok then
      fri_check_layers h rngU64 schedule sizes zLayers domains roots rootsSeed q
        qopen rest
    else some false

/-- One query of `fri_verify_queries`: the per-layer checks followed by the
final-layer leaf check. -/
def fri_check_query (h : String → List K → K) (rngU64 : K → Nat)
    (schedule sizes : List Nat) (zLayers : List K) (domains : List (Nat × K))
    (roots : List K) (rootsSeed : K) (l q : Nat) (qopen : FriQueryOpenings K) :
    Option Bool :=
  if qopen.perLayer.length ≠ l then some false
  else do
    let ok ← fri_check_layers h rngU64 schedule sizes zLayers domains roots
      rootsSeed q qopen (List.range l)
    if ok then
      some (pm_verify_leaf h (roots.getD l 0) qopen.finalLeaf qopen.finalProof)
    else some false

/-- The query loop of `fri_verify_queries` over `queries.enumerate().take(r)`. -/
def fri_check_all (h : String → List K → K) (rngU64 : K → Nat)
    (schedule sizes : List Nat) (zLayers : List K) (domains : List (Nat × K))
    (roots : List K) (rootsSeed : K) (l : Nat) :
    List (Nat × FriQueryOpenings K) → Option Bool
  | [] => some true
  | (q, qopen) :: rest => do
    let ok ← fri_check_query h rngU64 schedule sizes zLayers domains roots
      rootsSeed l q qopen
    if ok then
      fri_check_all h rngU64 schedule sizes zLayers domains roots rootsSeed l rest
    else some false

/-- `fri_verify_queries`.  The Poseidon hash, the `StdRng` u64 draw, the
per-layer folding-point sampler and the radix-2 group generator are oracles;
`none` models the panics of `layer_sizes_from_schedule` and of the per-query
checks. -/
def fri_verify_queries (h : String → List K → K) (rngU64 : K → Nat)
    (sampleZ : Nat → Nat → Nat → K) (groupGen : Nat → K) (schedule : List Nat)
    (n0 : Nat) (omega0Unused : K) (seedZ : Nat) (roots : List K)
    (queries : List (FriQueryOpenings K)) (r : Nat) : Option Bool :=
  let l := schedule.length
  if roots.length ≠ l + 1 then some false
  else do
    let sizes ← layer_sizes_from_schedule n0 schedule
    let domains := layer_domains groupGen sizes l
    let zLayers := (List.range l).map (fun ell => sampleZ seedZ ell (sizes.getD ell 0))
    let rootsSeed := fs_seed_from_roots h roots
    fri_check_all h rngU64 schedule sizes zLayers domains roots rootsSeed l
      (queries.take r).enum

/-- `deep_fri_verify` forwards the packaged proof to `fri_verify_queries`. -/
def deep_fri_verify (h : String → List K → K) (rngU64 : K → Nat)
    (sampleZ : Nat → Nat → Nat → K) (groupGen : Nat → K) (schedule : List Nat)
    (r seedZ : Nat) (roots : List K) (queries : List (FriQueryOpenings K))
    (n0 : Nat) (omega0 : K) : Option Bool :=
  fri_verify_queries h rngU64 sampleZ groupGen schedule n0 omega0 seedZ roots
    queries r

/-! ## poseidon/src/lib.rs: dynamic parameter construction -/

/-- `PoseidonParamsDynamic` with the derived constants kept abstract through
the `fr_from_hash` oracle used to generate them. -/
structure PoseidonParamsDynE (K : Type) where
  t : Nat
  rate : Nat
  roundsFull : Nat
  roundsPartial : Nat
  alpha : Nat
  mds : List (List K)
  rcFull : List (List K)
  rcPartial : List K

/-- `seed_for_t`: `b"POSEIDON-PALLAS-T" ++ (t as u64).to_le_bytes()`. -/
def seed_for_t (t : Nat) : List Nat :=
  ("POSEIDON-PALLAS-T".toList.map Char.toNat) ++ u64_le_bytes t

/-- `derive_mds` via the `fr_from_hash` oracle. -/
def derive_mds (frh : String → List Nat → K) (seed : List Nat) (t : Nat) :
    List (List K) :=
  (List.range t).map (fun i => (List.range t).map (fun j =>
    frh "POSEIDON-MDS" (u64_le_bytes i ++ u64_le_bytes j ++ seed)))

/-- `derive_rc_full`. -/
def derive_rc_full (frh : String → List Nat → K) (seed : List Nat) (rf t : Nat) :
    List (List K) :=
  (List.range rf).map (fun r => (List.range t).map (fun i =>
    frh "POSEIDON-RC-FULL" (u64_le_bytes r ++ u64_le_bytes i ++ seed)))

/-- `derive_rc_partial`. -/
def derive_rc_partial (frh : String → List Nat → K) (seed : List Nat) (rp : Nat) :
    List K :=
  (List.range rp).map (fun r =>
    frh "POSEIDON-RC-PART" (u64_le_bytes r ++ seed))

/-- `poseidon_params_for_width`: `(RF, RP)` is `(8, 64)` for `t = 17` and
`(8, 60)` for `t = 9`; every other width hits the
`panic!("unsupported Poseidon width ...")` arm, modelled as `none`. -/
def poseidon_params_for_width (frh : String → List Nat → K) (t : Nat) :
    Option (PoseidonParamsDynE K) :=
  ((match t with
   | 17 => some ((8 : Nat), (64 : Nat))
   | 9 => some ((8 : Nat), (60 : Nat))
   | _ => none : Option (Nat × Nat))).map (fun rfrp =>
    let rate := t - 1
    let seed := seed_for_t t
    ⟨t, rate, rfrp.1, rfrp.2, 5, derive_mds frh seed t,
      derive_rc_full frh seed rfrp.1 t, derive_rc_partial frh seed rfrp.2⟩)

/-- Modelled from the spec: `poseidon_params_for_arity` is referenced by the
merkle crate but its definition is not under `src/`; per the spec it selects
the smallest legal width for the arity (`m ≤ 8 ⇒ t=9; m ≤ 16 ⇒ t=17;
m ≤ 32 ⇒ t=33; m ≤ 64 ⇒ t=65`) and builds the parameters for that width. -/
def width_for_arity (m : Nat) : Nat :=
  if m ≤ 8 then 9 else if m ≤ 16 then 17 else if m ≤ 32 then 33 else 65

/-- Modelled from the spec: `poseidon_params_for_arity = params for the
smallest legal width of the arity`, delegating to the in-source
`poseidon_params_for_width`. -/
def poseidon_params_for_arity (frh : String → List Nat → K) (m : Nat) :
    Option (PoseidonParamsDynE K) :=
  poseidon_params_for_width frh (width_for_arity m)

/-! ## transcript/src/lib.rs -/

/-- Sponge state of the transcript: width-17 state as a function on lane
indices (lanes `0..16` are the rate, lane `16` the capacity), plus the rate
cursor `pos`. -/
structure SpongeT (K : Type) where
  state : Nat → K
  pos : Nat

/-- Byte strings of the transcript DS tags. -/
def ds_transcript_init : List Nat := "FSv1-TRANSCRIPT-INIT".toList.map Char.toNat

/-- `FSv1-ABSORB-BYTES`. -/
def ds_absorb_bytes : List Nat := "FSv1-ABSORB-BYTES".toList.map Char.toNat

/-- `FSv1-CHALLENGE`. -/
def ds_challenge : List Nat := "FSv1-CHALLENGE".toList.map Char.toNat

/-- `domain_tag_to_field`: ≤ 32 bytes are read little-endian; longer tags are
folded by summing 32-byte chunks. -/
def domain_tag_to_field (tag : List Nat) : K :=
  if tag.length ≤ 32 then le_bytes_to_field tag
  else ((chunksOf 32 tag).map le_bytes_to_field).sum

/-- `bytes_to_field_words`: 31-byte little-endian words. -/
def bytes_to_field_words (bs : List Nat) : List K :=
  (chunksOf 31 bs).map le_bytes_to_field

/-- One absorbed element (`Transcript::absorb_fields` loop body): permute and
reset the cursor when it has reached the rate, then add into the current rate
lane and advance. -/
def t_absorb_one (P : (Nat → K) → Nat → K) (x : K) (st : SpongeT K) : SpongeT K :=
  if st.pos = 16 then
    ⟨fun j => if j = 0 then P st.state j + x else P st.state j, 1⟩
  else
    ⟨fun j => if j = st.pos then st.state j + x else st.state j, st.pos + 1⟩

/-- Rate-masked variant of `t_absorb_one`: identical except that the write is
guarded to rate lanes (`index < 16`); used to state that absorbs never write
the capacity lane. -/
def t_absorb_one_rate_only (P : (Nat → K) → Nat → K) (x : K) (st : SpongeT K) :
    SpongeT K :=
  if st.pos = 16 then
    ⟨fun j => if j = 0 ∧ (0 : Nat) < 16 then P st.state j + x else P st.state j, 1⟩
  else
    ⟨fun j => if j = st.pos ∧ st.pos < 16 then st.state j + x else st.state j,
      st.pos + 1⟩

/-- `Transcript::absorb_fields`, generic in the single-element absorber. -/
def tg_absorb_fields (abs1 : K → SpongeT K → SpongeT K) (xs : List K)
    (st : SpongeT K) : SpongeT K :=
  xs.foldl (fun s x => abs1 x s) st

/-- `Transcript::absorb_bytes`: a labelled DS field, then the 31-byte words. -/
def tg_absorb_bytes (abs1 : K → SpongeT K → SpongeT K) (bs : List Nat)
    (st : SpongeT K) : SpongeT K :=
  tg_absorb_fields abs1 (bytes_to_field_words bs)
    (tg_absorb_fields abs1 [domain_tag_to_field ds_absorb_bytes] st)

/-- `Transcript::new`: zero state, DS tag into the capacity lane (index 16),
then absorb the context label. -/
def tg_new (abs1 : K → SpongeT K → SpongeT K) (label : List Nat) : SpongeT K :=
  tg_absorb_bytes abs1 label
    ⟨fun j => if j = 16 then domain_tag_to_field ds_transcript_init else 0, 0⟩

/-- `Transcript::challenge`: absorb the CHALLENGE marker and the label, force
a permutation, reset the cursor, return lane 0. -/
def tg_challenge (P : (Nat → K) → Nat → K) (abs1 : K → SpongeT K → SpongeT K)
    (label : List Nat) (st : SpongeT K) : K × SpongeT K :=
  let st1 := tg_absorb_bytes abs1 label
    (tg_absorb_fields abs1 [domain_tag_to_field ds_challenge] st)
  let st2 : SpongeT K := ⟨P st1.state, 0⟩
  (st2.state 0, st2)

/-- `Transcript::challenges` body over an explicit list of counters. -/
def tg_challenges_aux (P : (Nat → K) → Nat → K)
    (abs1 : K → SpongeT K → SpongeT K) (label : List Nat) :
    List Nat → SpongeT K → List K × SpongeT K
  | [], st => ([], st)
  | i :: rest, st =>
    let c := tg_challenge P abs1 (label ++ u64_le_bytes i) st
    let cs := tg_challenges_aux P abs1 label rest c.2
    (c.1 :: cs.1, cs.2)

/-- `Transcript::challenges`. -/
def tg_challenges (P : (Nat → K) → Nat → K) (abs1 : K → SpongeT K → SpongeT K)
    (label : List Nat) (n : Nat) (st : SpongeT K) : List K × SpongeT K :=
  tg_challenges_aux P abs1 label (List.range n) st

/-- The public transcript operations. -/
inductive TOp (K : Type) where
  | absorbBytesOp : List Nat → TOp K
  | absorbFieldOp : K → TOp K
  | absorbFieldsOp : List K → TOp K
  | challengeOp : List Nat → TOp K
  | challengesOp : List Nat → Nat → TOp K

/-- Run one transcript operation (challenge outputs discarded). -/
def tg_run_op (P : (Nat → K) → Nat → K) (abs1 : K → SpongeT K → SpongeT K)
    (op : TOp K) (st : SpongeT K) : SpongeT K :=
  match op with
  | .absorbBytesOp bs => tg_absorb_bytes abs1 bs st
  | .absorbFieldOp x => tg_absorb_fields abs1 [x] st
  | .absorbFieldsOp xs => tg_absorb_fields abs1 xs st
  | .challengeOp l => (tg_challenge P abs1 l st).2
  | .challengesOp l n => (tg_challenges P abs1 l n st).2

/-- Run a sequence of transcript operations. -/
def tg_run (P : (Nat → K) → Nat → K) (abs1 : K → SpongeT K → SpongeT K)
    (ops : List (TOp K)) (st : SpongeT K) : SpongeT K :=
  ops.foldl (fun s op => tg_run_op P abs1 op s) st

/-! ## merkle/src/lib.rs -/

/-- The DS label absorbed ahead of every merkle-crate hash
(`DsLabel::to_fields`). -/
structure DsLabel where
  arity : Nat
  level : Nat
  position : Nat
  treeLabel : Nat
deriving DecidableEq

/-- `LEAF_LEVEL_DS = u32::MAX`. -/
def leaf_level_ds : Nat := 4294967295

/-- The extended width guard shared by `MerkleTree::new`, `verify_many_ds`
and `verify_pairs_ds`: the arity bucket must match `t ∈ {9, 17, 33, 65}`. -/
def ok_width (arity t : Nat) : Bool :=
  (decide (arity ≤ 8) && decide (t = 9)) ||
  (decide (9 ≤ arity) && decide (arity ≤ 16) && decide (t = 17)) ||
  (decide (17 ≤ arity) && decide (arity ≤ 32) && decide (t = 33)) ||
  (decide (33 ≤ arity) && decide (arity ≤ 64) && decide (t = 65))

/-- Union-of-paths `MerkleProof`. -/
structure MerkleProofU (K : Type) where
  indices : List Nat
  siblings : List (List K)
  groupSizes : List (List Nat)
  arity : Nat
deriving DecidableEq

/-- Insert into a sorted duplicate-free list (`sort_unstable` + `dedup`
combined behaviour for one element). -/
def insert_sorted_unique (a : Nat) : List Nat → List Nat
  | [] => [a]
  | b :: rest =>
    if a < b then a :: b :: rest
    else if a = b then b :: rest
    else b :: insert_sorted_unique a rest

/-- `indices.sort_unstable(); indices.dedup()`. -/
def sort_dedup (l : List Nat) : List Nat :=
  l.foldl (fun acc a => insert_sorted_unique a acc) []

/-- `BTreeMap::insert` on a key-sorted association list (later inserts on the
same key replace the value). -/
def map_insert {α : Type} (k : Nat) (v : α) : List (Nat × α) → List (Nat × α)
  | [] => [(k, v)]
  | (k', v') :: rest =>
    if k < k' then (k, v) :: (k', v') :: rest
    else if k = k' then (k, v) :: rest
    else (k', v') :: map_insert k v rest

/-- Build a `BTreeMap` from insertion order (duplicates: last write wins). -/
def map_of_pairs {α : Type} (pairs : List (Nat × α)) : List (Nat × α) :=
  pairs.foldl (fun m kv => map_insert kv.1 kv.2 m) []

/-- `BTreeMap` lookup. -/
def map_find? {α : Type} (k : Nat) : List (Nat × α) → Option α
  | [] => none
  | (k', v) :: rest => if k = k' then some v else map_find? k rest

/-- `BTreeMap::entry(k).or_default().push(x)` on a key-sorted association
list of lists. -/
def group_insert {α : Type} (k : Nat) (x : α) :
    List (Nat × List α) → List (Nat × List α)
  | [] => [(k, [x])]
  | (k', xs) :: rest =>
    if k < k' then (k, [x]) :: (k', xs) :: rest
    else if k = k' then (k', xs ++ [x]) :: rest
    else (k', xs) :: group_insert k x rest

/-- Group `(index, value)` pairs by parent `index / arity` in ascending
parent order, recording child positions `index % arity` in insertion order
(the `groups` map of `verify_many`/`verify_many_ds`). -/
def group_by_parent {α : Type} (arity : Nat) (pairs : List (Nat × α)) :
    List (Nat × List (Nat × α)) :=
  pairs.foldl (fun m p => group_insert (p.1 / arity) (p.1 % arity, p.2) m) []

/-- The index-only grouping of `open_union_of_paths`. -/
def group_idx_by_parent (arity : Nat) (idxs : List Nat) :
    List (Nat × List Nat) :=
  idxs.foldl (fun m i => group_insert (i / arity) (i % arity) m) []

/-- Insertion step of `sort_unstable` on `Nat` (stable on our duplicate-free
inputs). -/
def insert_le (a : Nat) : List Nat → List Nat
  | [] => [a]
  | b :: rest => if a ≤ b then a :: b :: rest else b :: insert_le a rest

/-- `opened_positions.sort_unstable()`. -/
def sort_nat (l : List Nat) : List Nat := l.foldr insert_le []

/-- Insertion step of `sort_unstable_by_key(|(cpos, _)| *cpos)`. -/
def insert_by_key {α : Type} (x : Nat × α) :
    List (Nat × α) → List (Nat × α)
  | [] => [x]
  | y :: rest => if x.1 ≤ y.1 then x :: y :: rest else y :: insert_by_key x rest

/-- `opened.sort_unstable_by_key(|(cpos, _)| *cpos)`. -/
def sort_by_key {α : Type} (l : List (Nat × α)) : List (Nat × α) :=
  l.foldr insert_by_key []

/-- One parent group of `levels[level].chunks(arity)` hashed with its DS
label (`MerkleTree::new` / `new_pairs` inner loop). -/
def level_up (hds : DsLabel → List K → K) (arity treeLabel level : Nat)
    (cur : List K) : List K :=
  ((chunksOf arity cur).enum).map
    (fun pc => hds ⟨arity, level, pc.1, treeLabel⟩ pc.2)

/-- The `while levels.last().len() > 1` loop of `MerkleTree::new`, with
explicit fuel; returns the levels bottom-up (`none` models divergence, which
in Rust happens for `arity ≤ 1`). -/
def mt_levels (hds : DsLabel → List K → K) (arity treeLabel : Nat) :
    Nat → Nat → List K → Option (List (List K))
  | 0, _, _ => none
  | fuel + 1, level, cur =>
    if cur.length ≤ 1 then some [cur]
    else (mt_levels hds arity treeLabel fuel (level + 1)
      (level_up hds arity treeLabel level cur)).map (cur :: ·)

/-- The embedded `MerkleTree` (single-column constructor `MerkleTree::new`). -/
structure MerkleTreeE (K : Type) where
  levels : List (List K)
  root : K
  arity : Nat
  t : Nat
  treeLabel : Nat
deriving DecidableEq

/-- `MerkleTree::new`; `none` models the `assert!`s (non-empty leaves, width
guard) and a diverging build. -/
def mt_new (hds : DsLabel → List K → K) (leaves : List K)
    (arity t treeLabel : Nat) : Option (MerkleTreeE K) :=
  if leaves = [] then none
  else if ¬ ok_width arity t then none
  else
    match mt_levels hds arity treeLabel (leaves.length + 1) 0 leaves with
    | none => none
    | some levels =>
      match (levels.getLastD []).head? with
      | none => none
      | some root => some ⟨levels, root, arity, t, treeLabel⟩

/-- The per-bucket sibling scan of `open_union_of_paths`: walk the child
positions `pos, pos+1, …` (`count` of them), consuming an opened position on
match and otherwise emitting the tree node at `base + pos`. -/
def bucket_scan (levelNodes : List K) (base : Nat) :
    Nat → Nat → List Nat → List K
  | 0, _, _ => []
  | c + 1, pos, opened =>
    match opened with
    | o :: rest =>
      if o = pos then bucket_scan levelNodes base c (pos + 1) rest
      else levelNodes.getD (base + pos) 0 ::
        bucket_scan levelNodes base c (pos + 1) (o :: rest)
    | [] => levelNodes.getD (base + pos) 0 ::
        bucket_scan levelNodes base c (pos + 1) []

/-- The actual child count of the parent `p` at a level of length `len`. -/
def child_count_at (arity len p : Nat) : Nat :=
  min (p * arity + arity) len - p * arity

/-- One level of `open_union_of_paths`: group the frontier by parent, emit
per-parent child counts (cast to `u8`) and the non-opened child digests. -/
def open_level (arity : Nat) (levelNodes : List K) (curIdx : List Nat) :
    List K × List Nat :=
  let groups := group_idx_by_parent arity curIdx
  ((groups.map (fun g =>
      bucket_scan levelNodes (g.1 * arity)
        (child_count_at arity levelNodes.length g.1) 0 (sort_nat g.2))).flatten,
   groups.map (fun g => child_count_at arity levelNodes.length g.1 % 256))

/-- The level loop of `open_union_of_paths` over `levels[0..height]`,
propagating the deduplicated parent frontier. -/
def open_levels (arity : Nat) : List (List K) → List Nat →
    List (List K) × List (List Nat)
  | [], _ => ([], [])
  | [_], _ => ([], [])
  | cur :: next :: rest, curIdx =>
    let lvl := open_level arity cur curIdx
    let tail := open_levels arity (next :: rest) (sort_dedup (curIdx.map (· / arity)))
    (lvl.1 :: tail.1, lvl.2 :: tail.2)

/-- `MerkleTree::open_union_of_paths` (= `open_many`/`open_many_single`);
`none` models the empty-indices assert. -/
def open_many (tree : MerkleTreeE K) (indices : List Nat) :
    Option (MerkleProofU K) :=
  if indices = [] then none
  else
    let req := sort_dedup indices
    let sg := open_levels tree.arity tree.levels req
    some ⟨req, sg.1, sg.2, tree.arity⟩

/-- Verifier outcome: `panicked` models a Rust panic, `rejected` an early
`return false`. -/
inductive VOut (α : Type) where
  | panicked : VOut α
  | rejected : VOut α
  | ok : α → VOut α

/-- Child reconstruction for one parent in `verify_many`/`verify_many_ds`:
walk positions `pos, …, pos+count−1`, take the opened value on a position
match and otherwise draw the next proof sibling (`none` models
`off >= level_siblings.len()`, an early `return false`). -/
def recon_children (count pos : Nat)
    (opened : List (Nat × K)) (sibs : List K) : Option (List K × List K) :=
  match count with
  | 0 => some ([], sibs)
  | c + 1 =>
    match opened with
    | (cpos, v) :: rest =>
      if cpos = pos then
        (recon_children c (pos + 1) rest sibs).map (fun r => (v :: r.1, r.2))
      else
        match sibs with
        | [] => none
        | s :: srest =>
          (recon_children c (pos + 1) ((cpos, v) :: rest) srest).map
            (fun r => (s :: r.1, r.2))
    | [] =>
      match sibs with
      | [] => none
      | s :: srest =>
        (recon_children c (pos + 1) [] srest).map (fun r => (s :: r.1, r.2))

/-- Process the groups of one level in `verify_many`/`verify_many_ds`,
threading the sibling stream; `nodeH level parent children` is the parent
digest (DS-aware or legacy). -/
def verify_groups (nodeH : Nat → Nat → List K → K) (arity level : Nat) :
    List ((Nat × List (Nat × K)) × Nat) → List K →
    VOut (List (Nat × K) × List K)
  | [], sibs => .ok ([], sibs)
  | (g, childCount) :: rest, sibs =>
    if childCount = 0 ∨ arity < childCount then .rejected
    else
      match recon_children childCount 0 (sort_by_key g.2) sibs with
      | none => .rejected
      | some r =>
        let parent := nodeH level g.1 r.1
        match verify_groups nodeH arity level rest r.2 with
        | .panicked => .panicked
        | .rejected => .rejected
        | .ok tailOut => .ok ((g.1, parent) :: tailOut.1, tailOut.2)

/-- The level loop of `verify_many`/`verify_many_ds`.  A non-empty frontier
divided by `arity = 0` is the usize division-by-zero panic of the grouping
loop. -/
def verify_levels (nodeH : Nat → Nat → List K → K) (arity : Nat) :
    Nat → List (List K × List Nat) → List (Nat × K) → VOut (List (Nat × K))
  | _, [], pairs => .ok pairs
  | level, lvl :: rest, pairs =>
    if arity = 0 ∧ pairs ≠ [] then .panicked
    else
      let groups := group_by_parent arity pairs
      if groups.length ≠ lvl.2.length then .rejected
      else
        match verify_groups nodeH arity level (groups.zip lvl.2) lvl.1 with
        | .panicked => .panicked
        | .rejected => .rejected
        | .ok r =>
          if r.2 ≠ [] then .rejected
          else verify_levels nodeH arity (level + 1) rest r.1

/-- Shared body of `verify_many` and `verify_many_ds` after the per-function
preambles: align values to the sorted unique indices through the
`BTreeMap`, run the level loop, compare the single survivor with the root. -/
def verify_body (nodeH : Nat → Nat → List K → K) (arity : Nat) (root : K)
    (req : List Nat) (indices : List Nat) (values : List K)
    (proof : MerkleProofU K) : Option Bool :=
  let m := map_of_pairs (indices.zip values)
  match collectSome (req.map (fun i => map_find? i m)) with
  | none => none
  | some curV =>
    match verify_levels nodeH arity 0 (proof.siblings.zip proof.groupSizes)
        (req.zip curV) with
    | .panicked => none
    | .rejected => some false
    | .ok pairs =>
      match pairs with
      | [(_, v)] => some (v == root)
      | _ => some false

/-- `verify_many_ds`; `none` models a panic (the `idx / arity` division by
zero reachable with `proof.arity = 0` under `t = 9`). -/
def verify_many_ds (hds : DsLabel → List K → K) (root : K)
    (indices : List Nat) (values : List K) (proof : MerkleProofU K)
    (treeLabel t : Nat) : Option Bool :=
  if indices = [] ∨ indices.length ≠ values.length then some false
  else
    let req := sort_dedup indices
    if proof.indices ≠ req then some false
    else if proof.siblings.length ≠ proof.groupSizes.length then some false
    else
      let arity := proof.arity
      if ¬ ok_width arity t then some false
      else
        verify_body (fun level p children => hds ⟨arity, level, p, treeLabel⟩ children)
          arity root req indices values proof

/-- Legacy `verify_many`: identical control flow, fixed-tag hashing and no
width guard (the `hd` oracle is `hash_with_ds(children, ds_tag, params)`). -/
def verify_many (hd : List K → K) (root : K) (indices : List Nat)
    (values : List K) (proof : MerkleProofU K) : Option Bool :=
  if indices = [] ∨ indices.length ≠ values.length then some false
  else
    let req := sort_dedup indices
    if proof.indices ≠ req then some false
    else if proof.siblings.length ≠ proof.groupSizes.length then some false
    else
      verify_body (fun _ _ children => hd children) proof.arity root req
        indices values proof

/-- `verify_pairs_ds`: recompute the leaf digests from the `(f, cp)` pairs
under the leaf DS label and verify the single-column proof on them. -/
def verify_pairs_ds (hds : DsLabel → List K → K) (root : K)
    (indices : List Nat) (pairs : List (K × K)) (proof : MerkleProofU K)
    (treeLabel t : Nat) : Option Bool :=
  if indices.length ≠ pairs.length ∨ indices = [] then some false
  else
    let arity := proof.arity
    if ¬ ok_width arity t then some false
    else
      let req := sort_dedup indices
      let mp := map_of_pairs (indices.zip pairs)
      match collectSome (req.map (fun i => map_find? i mp)) with
      | none => none
      | some ps =>
        let leaves := (req.zip ps).map (fun ip =>
          hds ⟨arity, leaf_level_ds, ip.1, treeLabel⟩ [ip.2.1, ip.2.2])
        verify_many_ds hds root req leaves proof treeLabel t

/-- The transcript as shipped: `Transcript::new` followed by a sequence of
public operations, with the source's absorb step. -/
def transcript_run (P : (Nat → K) → Nat → K) (label : List Nat)
    (ops : List (TOp K)) : SpongeT K :=
  tg_run P (t_absorb_one P) ops (tg_new (t_absorb_one P) label)

/-- The rate-masked reference transcript: identical except that every absorb
write is guarded to the rate lanes `0..15`, so the capacity lane (index 16)
is structurally touched only by initialization and the permutation. -/
def transcript_run_rate_only (P : (Nat → K) → Nat → K) (label : List Nat)
    (ops : List (TOp K)) : SpongeT K :=
  tg_run P (t_absorb_one_rate_only P) ops (tg_new (t_absorb_one_rate_only P) label)

end Embedding

/-! ## Shared lemmas -/

section Theorems

variable {K : Type} [Field K] [DecidableEq K]

theorem finv?_some {x : K} (hx : x ≠ 0) : finv? x = some x⁻¹ := by
  simp [finv?, hx]

theorem collectSome_map_some {α β : Type} {l : List α} {g : α → Option β}
    (g' : α → β) (h : ∀ x ∈ l, g x = some (g' x)) :
    collectSome (l.map g) = some (l.map g') := by
  induction l with
  | nil => rfl
  | cons a rest ih =>
    have ha := h a (List.mem_cons_self a rest)
    rw [List.map_cons, ha, collectSome,
      ih (fun x hx => h x (List.mem_cons_of_mem a hx))]
    rfl

theorem getD_map_range {α : Type} {n j : Nat} (g : Nat → α) (d : α)
    (hj : j < n) : ((List.range n).map g).getD j d = g j := by
  rw [List.getD_eq_getElem?_getD, List.getElem?_map, List.getElem?_range hj]
  rfl

theorem length_map_range {α : Type} (n : Nat) (g : Nat → α) :
    ((List.range n).map g).length = n := by simp

/-! ## C7: the DEEP-ALI merge identity -/

theorem omega_pow_layer_one {omega : K} {n : Nat} (h : omega ^ n = 1)
    (j : Nat) : (omega ^ j) ^ n = 1 := by
  rw [pow_right_comm, h, one_pow]

theorem omega_pow_sub_ne {omega z : K} {n : Nat} (homega : omega ^ n = 1)
    (hz : z ^ n ≠ 1) (j : Nat) : omega ^ j - z ≠ 0 := by
  intro hzero
  have hj : omega ^ j = z := by linear_combination hzero
  exact hz (by rw [← hj]; exact omega_pow_layer_one homega j)

theorem lagrange_eval_some (values : List K) (z omega : K)
    (h0 : values.length ≠ 0) (hdom : z ^ values.length ≠ 1)
    (hnK : ((values.length : K)) ≠ 0)
    (hsub : ∀ j < values.length, z - omega ^ j ≠ 0) :
    ∃ pz, lagrange_eval_on_h values z omega = some pz := by
  unfold lagrange_eval_on_h
  have hd : is_in_domain z values.length = false := by
    simp [is_in_domain]
    exact hdom
  rw [if_neg h0, hd]
  simp only [Bool.false_eq_true, if_false, finv?_some hnK]
  rw [collectSome_map_some (fun j => values.getD j 0 * omega ^ j *
    (z - omega ^ j)⁻¹) (fun j hj => by
      rw [finv?_some (hsub j (List.mem_range.mp hj))]
      rfl)]
  exact ⟨_, rfl⟩

/-- C7: for every evaluation vectors A, S, E, T of equal length n > 1 on
H = ⟨ω⟩ with ω^n = 1, and every z with z^n ≠ 1, the outputs (f₀, z, c*) of
`deep_ali_merge_evals` satisfy, for every j < n,
f₀(ω^j)·(ω^j − z) + c*·((ω^j)^n − 1) = A(ω^j)·S(ω^j) + E(ω^j) − T(ω^j). -/
theorem deep_ali_merge_evals_identity (a s e t : List K) (omega z : K)
    (hs : s.length = a.length) (he : e.length = a.length)
    (ht : t.length = a.length) (hn : 1 < a.length)
    (hnK : ((a.length : K)) ≠ 0) (homega : omega ^ a.length = 1)
    (hz : z ^ a.length ≠ 1) :
    ∃ f0 c, deep_ali_merge_evals a s e t omega z = some (f0, z, c) ∧
      ∀ j < a.length,
        f0.getD j 0 * (omega ^ j - z) + c * ((omega ^ j) ^ a.length - 1) =
          a.getD j 0 * s.getD j 0 + e.getD j 0 - t.getD j 0 := by
  have hne : ∀ j < a.length, omega ^ j - z ≠ 0 := fun j _ =>
    omega_pow_sub_ne homega hz j
  have hlen : (phi_eval_list a s e t (K := K) none 0).length = a.length :=
    length_map_range _ _
  have hsub : ∀ j < a.length, z - omega ^ j ≠ 0 := by
    intro j hj hzero
    exact hne j hj (by linear_combination -hzero)
  obtain ⟨pz, hpz⟩ := lagrange_eval_some (phi_eval_list a s e t none 0) z omega
    (by rw [hlen]; omega) (by rw [hlen]; exact hz) (by rw [hlen]; exact hnK)
    (by rw [hlen]; exact hsub)
  have hzh : zh_at z a.length ≠ 0 := by
    simp only [zh_at]
    intro hzero
    exact hz (by linear_combination hzero)
  unfold deep_ali_merge_evals deep_ali_merge_evals_blinded
  have hd : is_in_domain z a.length = false := by
    simp [is_in_domain]; exact hz
  rw [if_neg (by omega), if_neg (by simp [hs, he, ht]), if_neg (by simp [opt_len_ok]),
    hd]
  simp only [Bool.false_eq_true, if_false]
  rw [hpz, finv?_some hzh]
  rw [collectSome_map_some (fun j =>
    (phi_eval_list a s e t none 0).getD j 0 * (omega ^ j - z)⁻¹) (fun j hj => by
      rw [finv?_some (hne j (List.mem_range.mp hj))]
      rfl)]
  refine ⟨_, _, rfl, ?_⟩
  intro j hj
  rw [getD_map_range _ _ hj]
  have hphi : (phi_eval_list a s e t (K := K) none 0).getD j 0 =
      a.getD j 0 * s.getD j 0 + e.getD j 0 - t.getD j 0 := by
    unfold phi_eval_list
    rw [getD_map_range _ _ hj]
  rw [inv_mul_cancel_right₀ (hne j hj), omega_pow_layer_one homega j, sub_self,
    mul_zero, add_zero, hphi]

/-- C7 witness: the identity instantiated over `ZMod 5` with n = 2, ω = 4,
z = 2. -/
theorem deep_ali_merge_evals_identity_witness :
    ∃ f0 c, deep_ali_merge_evals (K := ZMod 5) [1, 2] [3, 1] [2, 4] [0, 1] 4 2 =
        some (f0, 2, c) ∧
      ∀ j < ([1, 2] : List (ZMod 5)).length,
        f0.getD j 0 * ((4 : ZMod 5) ^ j - 2) + c * (((4 : ZMod 5) ^ j) ^ ([1, 2] : List (ZMod 5)).length - 1) =
          ([1, 2] : List (ZMod 5)).getD j 0 * ([3, 1] : List (ZMod 5)).getD j 0 +
            ([2, 4] : List (ZMod 5)).getD j 0 - ([0, 1] : List (ZMod 5)).getD j 0 :=
  deep_ali_merge_evals_identity [1, 2] [3, 1] [2, 4] [0, 1] 4 2 (by decide)
    (by decide) (by decide) (by decide) (by decide) (by decide) (by decide)

/-! ## C4: the folding-point rejection sampler -/

theorem fri_sample_z_loop_const_one (n : Nat) :
    ∀ fuel k, fri_sample_z_loop (fun _ => (1 : K)) n fuel k = none := by
  intro fuel
  induction fuel with
  | zero => intro k; rfl
  | succ f ih =>
    intro k
    simp only [fri_sample_z_loop, one_pow, ne_eq, not_true_eq_false, if_false]
    exact ih (k + 1)

/-- C4 counterexample: on the candidate stream that always yields 1 (which is
rejected at every domain size since 1^n = 1), `fri_sample_z_ell` has still
not returned after 2000 iterations — there is no 1000-retry budget and no
deterministic fallback. -/
theorem fri_sample_z_ell_no_budget :
    fri_sample_z_ell (K := ZMod 101) (fun _ _ => 0) (fun _ _ => 1) 0 0 1 2000 =
      none := by
  unfold fri_sample_z_ell
  exact fri_sample_z_loop_const_one 1 2000 0

theorem fri_sample_z_loop_first_good (stream : Nat → K) (n : Nat) :
    ∀ j fuel k, j < fuel → (∀ m < j, (stream (k + m)) ^ n = 1) →
      (stream (k + j)) ^ n ≠ 1 →
      fri_sample_z_loop stream n fuel k = some (stream (k + j)) := by
  intro j
  induction j with
  | zero =>
    intro fuel k hf _ hgood
    match fuel, hf with
    | f + 1, _ =>
      simp only [fri_sample_z_loop, Nat.add_zero] at hgood ⊢
      rw [if_pos hgood]
  | succ j ih =>
    intro fuel k hf hbad hgood
    cases fuel with
    | zero => omega
    | succ f =>
      have h0 : (stream k) ^ n = 1 := by
        have := hbad 0 (Nat.succ_pos j)
        simpa using this
      simp only [fri_sample_z_loop, h0, ne_eq, not_true_eq_false, if_false]
      have hf' : j < f := Nat.lt_of_succ_lt_succ hf
      have hrec := ih f (k + 1) hf'
        (fun m hm => by
          have := hbad (m + 1) (by omega)
          simpa [Nat.add_assoc, Nat.add_comm 1 m] using this)
        (by
          have heq : k + 1 + j = k + (j + 1) := by omega
          rw [heq]
          exact hgood)
      have harg : k + (j + 1) = k + 1 + j := by omega
      rw [harg]
      exact hrec

/-- C4 amended: `fri_sample_z_ell` has no retry budget and no fallback; it
returns the first candidate `c` of the seed-keyed RNG stream with
`c^{n_ℓ} ≠ 1`, looping for as long as candidates are rejected. -/
theorem fri_sample_z_ell_first_good (h : String → List K → K)
    (stream : K → Nat → K) (seedZ level n fuel j : Nat) (hf : j < fuel)
    (hbad : ∀ m < j,
      (stream (h "FRI/z/l" [(seedZ : K), (level : K), (n : K)]) m) ^ n = 1)
    (hgood :
      (stream (h "FRI/z/l" [(seedZ : K), (level : K), (n : K)]) j) ^ n ≠ 1) :
    fri_sample_z_ell h stream seedZ level n fuel =
      some (stream (h "FRI/z/l" [(seedZ : K), (level : K), (n : K)]) j) := by
  unfold fri_sample_z_ell
  have := fri_sample_z_loop_first_good
    (stream (h "FRI/z/l" [(seedZ : K), (level : K), (n : K)])) n j fuel 0 hf
    (by simpa using hbad) (by simpa using hgood)
  simpa using this

/-- C4 witness: over `ZMod 5` with domain size 3, the stream `1, 2, 2, …`
has its first good candidate at index 1, and the sampler returns it. -/
theorem fri_sample_z_ell_first_good_witness :
    fri_sample_z_ell (K := ZMod 5) (fun _ _ => 0)
      (fun _ m => if m = 0 then 1 else 2) 0 0 3 2 = some 2 := by
  have := fri_sample_z_ell_first_good (K := ZMod 5) (fun _ _ => 0)
    (fun _ m => if m = 0 then 1 else 2) 0 0 3 2 1 (by decide)
    (by decide) (by decide)
  simpa using this

/-! ## C3: Poseidon parameter widths -/

/-- C3 counterexample: `poseidon_params_for_width` aborts (panics) at width
33, one of the widths the claim says must succeed. -/
theorem poseidon_params_for_width_33_aborts :
    poseidon_params_for_width (K := ZMod 101) (fun _ _ => 0) 33 = none := rfl

/-- C3 amended: parameter construction succeeds exactly for widths
t ∈ {9, 17} (with RP 60 resp. 64); widths 33 and 65 abort, so the smallest
legal width is selected only for arities ≤ 16, while arities 17..64 (spec
widths 33/65) abort. -/
theorem poseidon_params_width_support (frh : String → List Nat → K) :
    (∃ p, poseidon_params_for_arity frh 2 = some p ∧ p.t = 9) ∧
    (∃ p, poseidon_params_for_arity frh 8 = some p ∧ p.t = 9) ∧
    (∃ p, poseidon_params_for_arity frh 16 = some p ∧ p.t = 17) ∧
    poseidon_params_for_arity frh 32 = none ∧
    poseidon_params_for_arity frh 64 = none ∧
    (∃ p, poseidon_params_for_width frh 9 = some p ∧ p.t = 9 ∧
      p.rate = 8 ∧ p.roundsFull = 8 ∧ p.roundsPartial = 60) ∧
    (∃ p, poseidon_params_for_width frh 17 = some p ∧ p.t = 17 ∧
      p.rate = 16 ∧ p.roundsFull = 8 ∧ p.roundsPartial = 64) ∧
    poseidon_params_for_width frh 33 = none ∧
    poseidon_params_for_width frh 65 = none :=
  ⟨⟨_, rfl, rfl⟩, ⟨_, rfl, rfl⟩, ⟨_, rfl, rfl⟩, rfl, rfl,
    ⟨_, rfl, rfl, rfl, rfl, rfl⟩, ⟨_, rfl, rfl, rfl, rfl, rfl⟩, rfl, rfl⟩

/-! ## C1: the DEEP-FRI verifier and the query count -/

/-- C1 (code-bug evidence): with schedule `[]`, one root and `r = 1`, the
verifier accepts a proof whose queries list is empty — `queries.len() == r`
is never checked (`.take(r)` silently tolerates fewer queries), for every
hash/RNG/sampler/domain oracle. -/
theorem deep_fri_verify_accepts_missing_queries (h : String → List K → K)
    (rngU64 : K → Nat) (sampleZ : Nat → Nat → Nat → K) (groupGen : Nat → K)
    (omega0 x : K) :
    deep_fri_verify h rngU64 sampleZ groupGen [] 1 0 [x] [] 1 omega0 =
        some true ∧
      fri_verify_queries h rngU64 sampleZ groupGen [] 1 omega0 0 [x] [] 1 =
        some true :=
  ⟨rfl, rfl⟩

/-! ## C5: totality of the Merkle verifiers -/

/-- C5 (code-bug evidence): a proof with `arity = 0` passes the width guard
under `t = 9` (`0 ≤ 8`), after which the verifier divides the frontier index
by the arity: `verify_many_ds` and `verify_pairs_ds` panic (usize division by
zero) instead of returning a boolean. -/
theorem verify_many_ds_arity_zero_panics (hds : DsLabel → List K → K)
    (root v : K) (lbl : Nat) :
    verify_many_ds hds root [0] [v] ⟨[0], [[]], [[1]], 0⟩ lbl 9 = none ∧
    verify_pairs_ds hds root [0] [(v, v)] ⟨[0], [[]], [[1]], 0⟩ lbl 9 = none :=
  ⟨rfl, rfl⟩

/-! ## C2: the derived second column and the local check -/

theorem foldl_add_congr {g1 g2 : Nat → K} :
    ∀ (l : List Nat) (init : K), (∀ x ∈ l, g1 x = g2 x) →
      l.foldl (fun acc x => acc + g1 x) init =
        l.foldl (fun acc x => acc + g2 x) init := by
  intro l
  induction l with
  | nil => intro _ _; rfl
  | cons a rest ih =>
    intro init hcong
    simp only [List.foldl_cons, hcong a (List.mem_cons_self a rest)]
    exact ih _ (fun x hx => hcong x (List.mem_cons_of_mem a hx))

theorem compute_cp_layer_honest (f : List K) (z omega : K) (m : Nat)
    (hm : 2 ≤ m) (hdvd : f.length % m = 0)
    (hz : ∀ i < f.length, z - omega ^ i ≠ 0) :
    fri_fold_layer f z m =
        some ((List.range (f.length / m)).map (bucketFold f z m)) ∧
      compute_cp_layer f ((List.range (f.length / m)).map (bucketFold f z m))
          z m omega = some (List.replicate f.length 0) := by
  constructor
  · unfold fri_fold_layer
    rw [if_neg (by omega), if_neg (by simp [hdvd])]
  · unfold compute_cp_layer
    rw [if_neg (by omega), if_neg (by simp [hdvd]),
      if_neg (by simp [length_map_range])]
    rw [collectSome_map_some (fun _ => 0) (fun i hi => by
      have hi' := List.mem_range.mp hi
      rw [finv?_some (hz i hi'),
        getD_map_range _ _ (Nat.div_lt_div_of_lt_of_dvd
          (Nat.dvd_of_mod_eq_zero hdvd) hi')]
      simp)]
    congr 1
    rw [List.map_const', List.length_range]

/-- C2 counterexample: an honest single fold over `ZMod 101` with
`f₀ = [1, 1]`, `m = 2`, `z = 2`, `ω = 100` gives `f₁ = [3]`, yet the second
column committed next to `f₀` is `cp = [0, 0]`: at `i = 0`,
`cp[0] = 0 ≠ 3 = f₁[0 div 2]`, refuting `s_ℓ[i] = f_{ℓ+1}[i div m_ℓ]`. -/
theorem compute_cp_layer_not_parent_value :
    fri_fold_layer (K := ZMod 101) [1, 1] 2 2 = some [3] ∧
    compute_cp_layer (K := ZMod 101) [1, 1] [3] 2 2 100 = some [0, 0] ∧
    ¬ (([0, 0] : List (ZMod 101)).getD 0 0 =
        ([3] : List (ZMod 101)).getD (0 / 2) 0) := by
  have hc := compute_cp_layer_honest (K := ZMod 101) [1, 1] 2 100 2
    (by norm_num) (by decide) (by decide)
  have hfold : fri_fold_layer (K := ZMod 101) [1, 1] 2 2 = some [3] := by
    rw [hc.1]
    decide
  have hmap : ((List.range (([1, 1] : List (ZMod 101)).length / 2)).map
      (bucketFold (K := ZMod 101) [1, 1] 2 2)) = [3] := by decide
  refine ⟨hfold, ?_, by decide⟩
  have := hc.2
  rw [hmap] at this
  simpa using this

/-- C2 amended: the derived second column is the rational residue column
`cp_ℓ[i] = (Σ_t f_ℓ[b·m+t]·z^t − f_{ℓ+1}[b])/(z − ω^i)` — identically 0 on an
honest prover run, not `f_{ℓ+1}[i div m]` — and the verifier's per-query
local check at child `i`, parent `b = i div m` is the rational equation
`cp_i·(z − ω^{i mod n_ℓ}) + f_{ℓ+1}[b] == Σ_t f_ℓ[b·m+t]·z^t`, which holds
on honest openings. -/
theorem compute_cp_layer_honest_zero_and_local_check (f : List K)
    (z omega : K) (m : Nat) (hm : 2 ≤ m) (hdvd : f.length % m = 0)
    (hz : ∀ i < f.length, z - omega ^ i ≠ 0) :
    ∃ fNext cp, fri_fold_layer f z m = some fNext ∧
      compute_cp_layer f fNext z m omega = some cp ∧
      cp = List.replicate f.length 0 ∧
      ∀ i < f.length,
        fri_local_equation
          ((List.range m).map (fun t' => f.getD (i / m * m + t') 0))
          (cp.getD i 0) (fNext.getD (i / m) 0) z m omega f.length i = true := by
  obtain ⟨hfold, hcp⟩ := compute_cp_layer_honest f z omega m hm hdvd hz
  refine ⟨_, _, hfold, hcp, rfl, ?_⟩
  intro i hi
  have hdiv : i / m < f.length / m :=
    Nat.div_lt_div_of_lt_of_dvd (Nat.dvd_of_mod_eq_zero hdvd) hi
  simp only [fri_local_equation]
  have hcp0 : (List.replicate f.length (0 : K)).getD i 0 = 0 := by
    rw [List.getD_eq_getElem?_getD, List.getElem?_replicate, if_pos hi]
    rfl
  rw [hcp0, zero_mul, zero_add, getD_map_range _ _ hdiv]
  have hsum : bucketFold f z m (i / m) =
      (List.range m).foldl (fun acc t' =>
        acc + ((List.range m).map (fun t'' => f.getD (i / m * m + t'') 0)).getD t' 0
          * z ^ t') 0 := by
    unfold bucketFold
    exact foldl_add_congr _ _ (fun x hx => by
      rw [getD_map_range _ _ (List.mem_range.mp hx)])
  rw [← hsum, beq_self_eq_true]

/-- C2 amended witness: the honest fold over `ZMod 101` with `f₀ = [1, 1]`,
`m = 2`, `z = 2`, `ω = 100`. -/
theorem compute_cp_layer_honest_zero_witness :
    ∃ fNext cp, fri_fold_layer (K := ZMod 101) [1, 1] 2 2 = some fNext ∧
      compute_cp_layer (K := ZMod 101) [1, 1] fNext 2 2 100 = some cp ∧
      cp = List.replicate ([1, 1] : List (ZMod 101)).length 0 ∧
      ∀ i < ([1, 1] : List (ZMod 101)).length,
        fri_local_equation
          ((List.range 2).map (fun t' => ([1, 1] : List (ZMod 101)).getD (i / 2 * 2 + t') 0))
          (cp.getD i 0) (fNext.getD (i / 2) 0) 2 2 100
          ([1, 1] : List (ZMod 101)).length i = true :=
  compute_cp_layer_honest_zero_and_local_check (K := ZMod 101) [1, 1] 2 100 2
    (by norm_num) (by decide) (by decide)

/-! ## C9: zero-pair padding of `PoseidonMerkle::build` -/

theorem next_power_of_two_ge (n : Nat) : n ≤ next_power_of_two n :=
  Nat.le_pow_clog (by norm_num) n

theorem next_power_of_two_idem (n : Nat) :
    next_power_of_two (next_power_of_two n) = next_power_of_two n := by
  unfold next_power_of_two
  rw [Nat.clog_pow 2 _ (by norm_num)]

/-- C9: `PoseidonMerkle::build` pads the leaf level with the digest of the
zero pair up to the next power of two, so extending the leaf vector itself
with zero pairs up to `next_power_of_two(|v|)` leaves the root unchanged
(for every hash oracle): the root does not bind the leaf count. -/
theorem pm_build_root_zero_pad (h : String → List K → K)
    (leaves : List (CombinedLeaf K)) (hne : leaves ≠ []) :
    pm_build_root h (leaves ++ List.replicate
        (next_power_of_two leaves.length - leaves.length) ⟨0, 0⟩) =
      pm_build_root h leaves := by
  have hn : leaves.length ≠ 0 := fun h0 => hne (List.length_eq_zero.mp h0)
  have hge := next_power_of_two_ge leaves.length
  have hlen : (leaves ++ List.replicate
      (next_power_of_two leaves.length - leaves.length)
      (⟨0, 0⟩ : CombinedLeaf K)).length = next_power_of_two leaves.length := by
    simp only [List.length_append, List.length_replicate]
    omega
  have hpos : 0 < next_power_of_two leaves.length :=
    Nat.pos_pow_of_pos _ (by norm_num)
  unfold pm_build_root
  simp only [hlen, next_power_of_two_idem]
  rw [if_neg (by omega), if_neg (by omega)]
  congr 2
  apply List.map_congr_left
  intro i hi
  have hiN : i < next_power_of_two leaves.length := List.mem_range.mp hi
  by_cases hil : i < leaves.length
  · rw [if_pos hil, if_pos hiN, List.getD_append _ _ _ _ hil]
  · rw [if_neg hil, if_pos hiN, List.getD_append_right _ _ _ _ (by omega)]
    have hrem : i - leaves.length <
        next_power_of_two leaves.length - leaves.length := by omega
    rw [List.getD_eq_getElem?_getD, List.getElem?_replicate, if_pos hrem]
    rfl

/-- C9 witness: a concrete three-leaf instance over `ZMod 101` (padded to
four leaves). -/
theorem pm_build_root_zero_pad_witness :
    pm_build_root (K := ZMod 101) (fun _ _ => 0)
        (([⟨1, 2⟩, ⟨3, 4⟩, ⟨5, 6⟩] : List (CombinedLeaf (ZMod 101))) ++
          List.replicate (next_power_of_two 3 - 3) ⟨0, 0⟩) =
      pm_build_root (fun _ _ => 0) [⟨1, 2⟩, ⟨3, 4⟩, ⟨5, 6⟩] :=
  pm_build_root_zero_pad (fun _ _ => 0) [⟨1, 2⟩, ⟨3, 4⟩, ⟨5, 6⟩] (by decide)

/-! ## C8: transcript sponge invariants -/

theorem t_absorb_one_eq_rate_only (P : (Nat → K) → Nat → K) (x : K)
    (st : SpongeT K) (hpos : st.pos ≤ 16) :
    t_absorb_one P x st = t_absorb_one_rate_only P x st ∧
      (t_absorb_one P x st).pos ≤ 16 := by
  unfold t_absorb_one t_absorb_one_rate_only
  by_cases h16 : st.pos = 16
  · rw [if_pos h16, if_pos h16]
    refine ⟨?_, by norm_num⟩
    congr 1
    funext j
    by_cases hj : j = 0 <;> simp [hj]
  · rw [if_neg h16, if_neg h16]
    have hlt : st.pos < 16 := by omega
    refine ⟨?_, by simp; omega⟩
    congr 1
    funext j
    by_cases hj : j = st.pos <;> simp [hj, hlt]

theorem tg_absorb_fields_eq_rate_only (P : (Nat → K) → Nat → K) (xs : List K) :
    ∀ st : SpongeT K, st.pos ≤ 16 →
      tg_absorb_fields (t_absorb_one P) xs st =
          tg_absorb_fields (t_absorb_one_rate_only P) xs st ∧
        (tg_absorb_fields (t_absorb_one P) xs st).pos ≤ 16 := by
  induction xs with
  | nil => exact fun st h => ⟨rfl, h⟩
  | cons x rest ih =>
    intro st h
    obtain ⟨heq, hp⟩ := t_absorb_one_eq_rate_only P x st h
    simp only [tg_absorb_fields, List.foldl_cons] at *
    rw [← heq]
    exact ih (t_absorb_one P x st) hp

theorem tg_absorb_bytes_eq_rate_only (P : (Nat → K) → Nat → K) (bs : List Nat)
    (st : SpongeT K) (h : st.pos ≤ 16) :
    tg_absorb_bytes (t_absorb_one P) bs st =
        tg_absorb_bytes (t_absorb_one_rate_only P) bs st ∧
      (tg_absorb_bytes (t_absorb_one P) bs st).pos ≤ 16 := by
  unfold tg_absorb_bytes
  have h1 := tg_absorb_fields_eq_rate_only P
    [domain_tag_to_field ds_absorb_bytes] st h
  have h2 := tg_absorb_fields_eq_rate_only P (bytes_to_field_words bs) _ h1.2
  refine ⟨?_, h2.2⟩
  rw [← h1.1]
  exact h2.1

theorem tg_new_eq_rate_only (P : (Nat → K) → Nat → K) (label : List Nat) :
    tg_new (t_absorb_one P) label = tg_new (t_absorb_one_rate_only P) label ∧
      (tg_new (t_absorb_one P) label : SpongeT K).pos ≤ 16 := by
  unfold tg_new
  exact tg_absorb_bytes_eq_rate_only P label _ (Nat.zero_le 16)

theorem tg_challenge_eq_rate_only (P : (Nat → K) → Nat → K) (lbl : List Nat)
    (st : SpongeT K) (h : st.pos ≤ 16) :
    tg_challenge P (t_absorb_one P) lbl st =
      tg_challenge P (t_absorb_one_rate_only P) lbl st := by
  unfold tg_challenge
  have h1 := tg_absorb_fields_eq_rate_only P
    [domain_tag_to_field ds_challenge] st h
  have h2 := tg_absorb_bytes_eq_rate_only P lbl _ h1.2
  rw [← h1.1, ← h2.1]

theorem tg_challenges_aux_eq_rate_only (P : (Nat → K) → Nat → K)
    (lbl : List Nat) :
    ∀ (js : List Nat) (st : SpongeT K), st.pos ≤ 16 →
      tg_challenges_aux P (t_absorb_one P) lbl js st =
          tg_challenges_aux P (t_absorb_one_rate_only P) lbl js st ∧
        (tg_challenges_aux P (t_absorb_one P) lbl js st).2.pos ≤ 16 := by
  intro js
  induction js with
  | nil => exact fun st h => ⟨rfl, h⟩
  | cons i rest ih =>
    intro st h
    simp only [tg_challenges_aux]
    rw [← tg_challenge_eq_rate_only P (lbl ++ u64_le_bytes i) st h]
    have hp : (tg_challenge P (t_absorb_one P) (lbl ++ u64_le_bytes i) st).2.pos
        ≤ 16 := by
      simp [tg_challenge]
    obtain ⟨heq, hrest⟩ := ih _ hp
    rw [heq]
    exact ⟨rfl, by rw [← heq]; exact hrest⟩

theorem tg_run_op_eq_rate_only (P : (Nat → K) → Nat → K) (op : TOp K)
    (st : SpongeT K) (h : st.pos ≤ 16) :
    tg_run_op P (t_absorb_one P) op st =
        tg_run_op P (t_absorb_one_rate_only P) op st ∧
      (tg_run_op P (t_absorb_one P) op st).pos ≤ 16 := by
  cases op with
  | absorbBytesOp bs => exact tg_absorb_bytes_eq_rate_only P bs st h
  | absorbFieldOp x => exact tg_absorb_fields_eq_rate_only P [x] st h
  | absorbFieldsOp xs => exact tg_absorb_fields_eq_rate_only P xs st h
  | challengeOp l =>
    refine ⟨?_, by simp [tg_run_op, tg_challenge]⟩
    simp only [tg_run_op]
    rw [tg_challenge_eq_rate_only P l st h]
  | challengesOp l n =>
    have := tg_challenges_aux_eq_rate_only P l (List.range n) st h
    refine ⟨?_, this.2⟩
    simp only [tg_run_op, tg_challenges]
    rw [this.1]

theorem tg_run_eq_rate_only (P : (Nat → K) → Nat → K) (ops : List (TOp K)) :
    ∀ st : SpongeT K, st.pos ≤ 16 →
      tg_run P (t_absorb_one P) ops st =
          tg_run P (t_absorb_one_rate_only P) ops st ∧
        (tg_run P (t_absorb_one P) ops st).pos ≤ 16 := by
  induction ops with
  | nil => exact fun st h => ⟨rfl, h⟩
  | cons op rest ih =>
    intro st h
    obtain ⟨heq, hp⟩ := tg_run_op_eq_rate_only P op st h
    simp only [tg_run, List.foldl_cons] at *
    rw [← heq]
    exact ih _ hp

/-- C8: for every permutation, context label and operation sequence, (i) the
cursor of the reached transcript stays in `0..=16` (= rate), (ii) the run
coincides with the rate-masked run, i.e. absorbs write only rate lanes
`0..15` and the capacity lane (index 16) is modified only by initialization
and the permutation, and (iii) every challenge resets the cursor to 0 and
returns lane 0 of a state that is an output of the permutation. -/
theorem transcript_capacity_cursor_challenge (P : (Nat → K) → Nat → K)
    (label : List Nat) (ops : List (TOp K)) :
    (transcript_run P label ops).pos ≤ 16 ∧
    transcript_run P label ops = transcript_run_rate_only P label ops ∧
    ∀ lbl,
      (tg_challenge P (t_absorb_one P) lbl (transcript_run P label ops)).2.pos
          = 0 ∧
      (tg_challenge P (t_absorb_one P) lbl (transcript_run P label ops)).1 =
        (tg_challenge P (t_absorb_one P) lbl
          (transcript_run P label ops)).2.state 0 ∧
      ∃ s, (tg_challenge P (t_absorb_one P) lbl
        (transcript_run P label ops)).2.state = P s := by
  obtain ⟨hnew, hnp⟩ := tg_new_eq_rate_only (K := K) P label
  obtain ⟨hrun, hrp⟩ := tg_run_eq_rate_only P ops (tg_new (t_absorb_one P) label) hnp
  refine ⟨hrp, ?_, fun lbl => ⟨rfl, rfl, _, rfl⟩⟩
  unfold transcript_run transcript_run_rate_only
  rw [hrun, hnew]

/-! ## C10: duplicated indices in `verify_many_ds` -/

theorem sort_dedup_pair_self (i : Nat) : sort_dedup [i, i] = [i] := by
  simp [sort_dedup, insert_sorted_unique]

theorem map_of_pairs_dup {α : Type} (i : Nat) (v1 v2 : α) :
    map_of_pairs [(i, v1), (i, v2)] = [(i, v2)] := by
  simp [map_of_pairs, map_insert]

/-- C10: (i) `verify_many_ds` uses only the last of two values supplied for
a duplicated index — the call on `[i, i]`/`[v₁, v₂]` equals the call on
`[i]`/`[v₂]` for all proofs and parameters; and (ii) verification can return
`true` on a duplicated index with two disagreeing values: any two-leaf
arity-2 tree accepts `[0, 0]`/`[v', a]` for every `v'` whatsoever. -/
theorem verify_many_ds_last_duplicate_wins (hds : DsLabel → List K → K)
    (root : K) (i : Nat) (v1 v2 : K) (proof : MerkleProofU K) (lbl t : Nat) :
    verify_many_ds hds root [i, i] [v1, v2] proof lbl t =
        verify_many_ds hds root [i] [v2] proof lbl t ∧
      ∀ a b v' : K,
        verify_many_ds hds (hds ⟨2, 0, 0, lbl⟩ [a, b]) [0, 0] [v', a]
          ⟨[0], [[b]], [[2]], 2⟩ lbl 9 = some true := by
  constructor
  · unfold verify_many_ds verify_body
    simp only [List.zip_cons_cons, List.zip_nil_right, List.length_cons,
      List.length_nil, sort_dedup_pair_self, map_of_pairs_dup]
    rfl
  · intro a b v'
    simp [verify_many_ds, verify_body, verify_levels, verify_groups,
      recon_children, group_by_parent, group_insert, sort_by_key,
      insert_by_key, map_of_pairs, map_insert, map_find?, collectSome,
      sort_dedup, insert_sorted_unique, ok_width]

/-! ## C6: the union-of-paths round trip.  First, `sort_dedup` facts. -/

theorem mem_insert_sorted_unique {b a : Nat} :
    ∀ {l : List Nat}, (b ∈ insert_sorted_unique a l ↔ b = a ∨ b ∈ l)
  | [] => by simp [insert_sorted_unique]
  | c :: rest => by
    unfold insert_sorted_unique
    by_cases h1 : a < c
    · simp [h1]
    · rw [if_neg h1]
      by_cases h2 : a = c
      · subst h2
        rw [if_pos rfl]
        simp only [List.mem_cons]
        tauto
      · rw [if_neg h2]
        simp only [List.mem_cons, mem_insert_sorted_unique (l := rest)]
        tauto

theorem pairwise_insert_sorted_unique {a : Nat} :
    ∀ {l : List Nat}, l.Pairwise (· < ·) →
      (insert_sorted_unique a l).Pairwise (· < ·)
  | [], _ => List.pairwise_singleton _ _
  | c :: rest, h => by
    unfold insert_sorted_unique
    obtain ⟨hc, hrest⟩ := List.pairwise_cons.mp h
    by_cases h1 : a < c
    · rw [if_pos h1]
      exact List.pairwise_cons.mpr ⟨fun x hx => by
        rcases List.mem_cons.mp hx with hx | hx
        · omega
        · exact lt_trans h1 (hc x hx), h⟩
    · rw [if_neg h1]
      by_cases h2 : a = c
      · rw [if_pos h2]; exact h
      · rw [if_neg h2]
        refine List.pairwise_cons.mpr ⟨fun x hx => ?_, pairwise_insert_sorted_unique hrest⟩
        rcases mem_insert_sorted_unique.mp hx with hx | hx
        · omega
        · exact hc x hx

theorem sort_dedup_pairwise (l : List Nat) :
    (sort_dedup l).Pairwise (· < ·) := by
  suffices h : ∀ acc : List Nat, acc.Pairwise (· < ·) →
      (l.foldl (fun acc a => insert_sorted_unique a acc) acc).Pairwise (· < ·) by
    exact h [] (List.Pairwise.nil)
  induction l with
  | nil => exact fun acc h => h
  | cons a rest ih =>
    intro acc hacc
    exact ih _ (pairwise_insert_sorted_unique hacc)

theorem mem_sort_dedup {x : Nat} {l : List Nat} :
    x ∈ sort_dedup l ↔ x ∈ l := by
  suffices h : ∀ acc : List Nat,
      (x ∈ l.foldl (fun acc a => insert_sorted_unique a acc) acc ↔ x ∈ l ∨ x ∈ acc) by
    rw [sort_dedup, h []]
    simp
  induction l with
  | nil => simp
  | cons a rest ih =>
    intro acc
    rw [List.foldl_cons, ih, mem_insert_sorted_unique]
    simp only [List.mem_cons]
    tauto

theorem sort_dedup_ne_nil {l : List Nat} (h : l ≠ []) : sort_dedup l ≠ [] := by
  obtain ⟨x, hx⟩ := List.exists_mem_of_ne_nil l h
  exact List.ne_nil_of_mem (mem_sort_dedup.mpr hx)

/-! `BTreeMap` lookup facts -/

theorem map_find?_insert {α : Type} (k k' : Nat) (v : α) :
    ∀ (m : List (Nat × α)), map_find? k (map_insert k' v m) =
      if k = k' then some v else map_find? k m
  | [] => by
    unfold map_insert map_find?
    by_cases h : k = k' <;> simp [h, map_find?]
  | (q, w) :: rest => by
    unfold map_insert
    by_cases h1 : k' < q
    · rw [if_pos h1]
      unfold map_find?
      by_cases h : k = k' <;> simp [h, map_find?]
    · rw [if_neg h1]
      by_cases h2 : k' = q
      · rw [if_pos h2]
        unfold map_find?
        subst h2
        by_cases h : k = k' <;> simp [h]
      · rw [if_neg h2]
        unfold map_find?
        by_cases h3 : k = q
        · have hkk : ¬ k = k' := by omega
          have hqk : ¬ q = k' := by omega
          simp [h3, hkk, hqk]
        · rw [if_neg h3, if_neg h3, map_find?_insert k k' v rest]

theorem map_find?_of_pairs_fn {α : Type} (f : Nat → α) (i : Nat) :
    ∀ (js : List Nat) (acc : List (Nat × α)),
      (map_find? i acc = some (f i) ∨ i ∈ js) →
      map_find? i (js.foldl (fun m j => map_insert j (f j) m) acc) = some (f i)
  | [], acc, h => by
    rcases h with h | h
    · exact h
    · simp at h
  | j :: rest, acc, h => by
    rw [List.foldl_cons]
    apply map_find?_of_pairs_fn f i rest
    by_cases hij : i = j
    · left
      rw [map_find?_insert, if_pos hij, hij]
    · rcases h with h | h
      · left
        rw [map_find?_insert, if_neg hij]
        exact h
      · right
        rcases List.mem_cons.mp h with h | h
        · exact absurd h hij
        · exact h

theorem zip_map_self {α : Type} (f : Nat → α) :
    ∀ (l : List Nat), l.zip (l.map f) = l.map (fun j => (j, f j))
  | [] => rfl
  | a :: rest => by
    simp only [List.map_cons, List.zip_cons_cons, zip_map_self f rest]

theorem map_find?_aligned {α : Type} (f : Nat → α) (idx : List Nat) (i : Nat)
    (hi : i ∈ idx) :
    map_find? i (map_of_pairs (idx.zip (idx.map f))) = some (f i) := by
  rw [zip_map_self, map_of_pairs, List.foldl_map]
  exact map_find?_of_pairs_fn f i idx [] (Or.inr hi)

/-! Sorting an already-sorted list is the identity -/

theorem insert_le_of_lt_head (a : Nat) :
    ∀ (l : List Nat), (∀ x ∈ l, a ≤ x) → insert_le a l = a :: l
  | [], _ => rfl
  | b :: rest, h => by
    unfold insert_le
    rw [if_pos (h b (List.mem_cons_self b rest))]

theorem sort_nat_of_pairwise :
    ∀ (l : List Nat), l.Pairwise (· < ·) → sort_nat l = l
  | [], _ => rfl
  | a :: rest, h => by
    obtain ⟨ha, hrest⟩ := List.pairwise_cons.mp h
    show insert_le a (sort_nat rest) = a :: rest
    rw [sort_nat_of_pairwise rest hrest]
    exact insert_le_of_lt_head a rest (fun x hx => Nat.le_of_lt (ha x hx))

theorem insert_by_key_of_lt_head {α : Type} (x : Nat × α) :
    ∀ (l : List (Nat × α)), (∀ y ∈ l, x.1 ≤ y.1) → insert_by_key x l = x :: l
  | [], _ => rfl
  | b :: rest, h => by
    unfold insert_by_key
    rw [if_pos (h b (List.mem_cons_self b rest))]

theorem sort_by_key_of_pairwise {α : Type} :
    ∀ (l : List (Nat × α)), l.Pairwise (fun x y => x.1 < y.1) →
      sort_by_key l = l
  | [], _ => rfl
  | a :: rest, h => by
    obtain ⟨ha, hrest⟩ := List.pairwise_cons.mp h
    show insert_by_key a (sort_by_key rest) = a :: rest
    rw [sort_by_key_of_pairwise rest hrest]
    exact insert_by_key_of_lt_head a rest (fun y hy => Nat.le_of_lt (ha y hy))

/-! Chunk and level facts -/

theorem chunksOf_nil {α : Type} (n : Nat) : chunksOf n ([] : List α) = [] := by
  simp [chunksOf]

theorem chunks_go_eq {α : Type} (n : Nat) (hn : n ≠ 0) :
    ∀ (xs acc : List α) (k : Nat),
      chunks_go n xs acc k = (acc ++ xs.take k) :: chunksOf n (xs.drop k)
  | [], acc, k => by simp [chunks_go, chunksOf]
  | x :: xs, acc, 0 => by
    simp only [chunks_go, List.take_zero, List.append_nil, List.drop_zero]
    congr 1
    rw [show chunksOf n (x :: xs) =
        if n = 0 then [] else chunks_go n xs [x] (n - 1) from rfl]
    rw [if_neg hn]
  | x :: xs, acc, k + 1 => by
    simp only [chunks_go, List.take_succ_cons, List.drop_succ_cons]
    rw [chunks_go_eq n hn xs (acc ++ [x]) k]
    simp

theorem chunksOf_cons {α : Type} (n : Nat) (hn : n ≠ 0) (x : α) (xs : List α) :
    chunksOf n (x :: xs) =
      (x :: xs).take n :: chunksOf n ((x :: xs).drop n) := by
  obtain ⟨m, rfl⟩ : ∃ m, n = m + 1 := ⟨n - 1, by omega⟩
  rw [show chunksOf (m + 1) (x :: xs) =
      if m + 1 = 0 then [] else chunks_go (m + 1) xs [x] (m + 1 - 1) from rfl]
  rw [if_neg hn]
  simp only [Nat.add_sub_cancel]
  rw [chunks_go_eq (m + 1) hn xs [x] m]
  simp [List.take_succ_cons, List.drop_succ_cons]

theorem chunksOf_length_iff {α : Type} (n : Nat) (hn : 1 ≤ n) :
    ∀ (l : List α) (p : Nat), p < (chunksOf n l).length ↔ p * n < l.length
  | [], p => by simp [chunksOf_nil]
  | x :: xs, p => by
    rw [chunksOf_cons n (by omega) x xs]
    cases p with
    | zero => simp
    | succ q =>
      rw [List.length_cons]
      have hdec : ((x :: xs).drop n).length < (x :: xs).length := by
        rw [List.length_drop]
        simp only [List.length_cons]
        omega
      have ih := chunksOf_length_iff n hn ((x :: xs).drop n) q
      rw [List.length_drop] at ih
      constructor
      · intro h
        have hq : q * n < (x :: xs).length - n := ih.mp (by omega)
        have : q * n + n ≤ (x :: xs).length - n + n := by omega
        calc (q + 1) * n = q * n + n := by ring
        _ < (x :: xs).length := by omega
      · intro h
        have hqn : q * n < (x :: xs).length - n := by
          have : (q + 1) * n = q * n + n := by ring
          omega
        have := ih.mpr hqn
        omega
  termination_by l => l.length

theorem chunksOf_getD {α : Type} (n : Nat) (hn : 1 ≤ n) :
    ∀ (l : List α) (p : Nat), p * n < l.length →
      (chunksOf n l).getD p [] = (l.drop (p * n)).take n
  | [], p, h => by simp at h
  | x :: xs, p, h => by
    rw [chunksOf_cons n (by omega) x xs]
    cases p with
    | zero => simp
    | succ q =>
      have hq : q * n < ((x :: xs).drop n).length := by
        rw [List.length_drop]
        have : (q + 1) * n = q * n + n := by ring
        omega
      have ih := chunksOf_getD n hn ((x :: xs).drop n) q hq
      simp only [List.getD_cons_succ]
      rw [ih, List.drop_drop]
      congr 2
      ring
  termination_by l => l.length

theorem chunksOf_ne_nil {α : Type} (n : Nat) (hn : 1 ≤ n) (x : α) (xs : List α) :
    chunksOf n (x :: xs) ≠ [] := by
  rw [chunksOf_cons n (by omega) x xs]
  exact List.cons_ne_nil _ _

theorem level_up_length {hds : DsLabel → List K → K} {a lbl lv : Nat}
    {cur : List K} :
    (level_up hds a lbl lv cur).length = (chunksOf a cur).length := by
  simp [level_up]

theorem level_up_getD (hds : DsLabel → List K → K) (a lbl lv : Nat)
    (cur : List K) (p : Nat) (hp : p < (chunksOf a cur).length) :
    (level_up hds a lbl lv cur).getD p 0 =
      hds ⟨a, lv, p, lbl⟩ ((chunksOf a cur).getD p []) := by
  unfold level_up
  have h1 : p < ((chunksOf a cur).enum).length := by
    rw [List.enum_length]; exact hp
  rw [List.getD_eq_getElem?_getD, List.getElem?_map,
    List.getElem?_eq_getElem h1, List.getElem_enum]
  simp only [Option.map_some', Option.getD_some]
  congr 1
  rw [List.getD_eq_getElem _ _ hp]

theorem range'_map_getD_eq_drop_take (cur : List K) (base cnt : Nat)
    (h : base + cnt ≤ cur.length) :
    (List.range' base cnt).map (fun j => cur.getD j 0) =
      (cur.drop base).take cnt := by
  apply List.ext_getElem
  · simp only [List.length_map, List.length_range', List.length_take,
      List.length_drop]
    omega
  · intro j h1 h2
    simp only [List.getElem_map, List.getElem_range', one_mul]
    rw [List.getElem_take, List.getElem_drop]
    have hj : j < cnt := by simpa using h1
    rw [List.getD_eq_getElem _ _ (by omega)]

/-! Per-bucket scan versus child reconstruction -/

theorem recon_scan (cur : List K) (base : Nat) :
    ∀ (count pos : Nat) (cs : List Nat) (rest : List K),
      cs.Pairwise (· < ·) → (∀ c ∈ cs, pos ≤ c ∧ c < pos + count) →
      recon_children count pos (cs.map (fun c => (c, cur.getD (base + c) 0)))
          (bucket_scan cur base count pos cs ++ rest) =
        some ((List.range' pos count).map (fun j => cur.getD (base + j) 0), rest) := by
  intro count
  induction count with
  | zero =>
    intro pos cs rest hs hb
    have hcs : cs = [] := by
      cases cs with
      | nil => rfl
      | cons c cs' =>
        have := hb c (List.mem_cons_self c cs')
        omega
    subst hcs
    simp [recon_children, bucket_scan, List.range']
  | succ cnt ih =>
    intro pos cs rest hs hb
    rw [List.range'_succ]
    cases cs with
    | nil =>
      rw [show bucket_scan cur base (cnt + 1) pos [] =
          cur.getD (base + pos) 0 :: bucket_scan cur base cnt (pos + 1) []
        from rfl]
      rw [List.cons_append]
      rw [show ∀ sb : List K, recon_children (cnt + 1) pos
            ((([] : List Nat)).map (fun c => (c, cur.getD (base + c) 0)))
            (cur.getD (base + pos) 0 :: sb) =
          (recon_children cnt (pos + 1) [] sb).map
            (fun r => (cur.getD (base + pos) 0 :: r.1, r.2))
        from fun sb => rfl]
      have hih := ih (pos + 1) [] rest List.Pairwise.nil (by simp)
      simp only [List.map_nil] at hih
      rw [hih]
      simp
    | cons c cs' =>
      obtain ⟨hhead, htail⟩ := List.pairwise_cons.mp hs
      have hcpos := hb c (List.mem_cons_self c cs')
      by_cases hc : c = pos
      · subst hc
        rw [show bucket_scan cur base (cnt + 1) c (c :: cs') =
            bucket_scan cur base cnt (c + 1) cs' from by
          rw [bucket_scan]; simp]
        rw [show recon_children (cnt + 1) c
              ((c :: cs').map (fun x => (x, cur.getD (base + x) 0)))
              (bucket_scan cur base cnt (c + 1) cs' ++ rest) =
            (recon_children cnt (c + 1)
                (cs'.map (fun x => (x, cur.getD (base + x) 0)))
                (bucket_scan cur base cnt (c + 1) cs' ++ rest)).map
              (fun r => (cur.getD (base + c) 0 :: r.1, r.2)) from by
          simp [recon_children]]
        rw [ih (c + 1) cs' rest htail (fun x hx => by
          have h1 := hhead x hx
          have h2 := hb x (List.mem_cons_of_mem c hx)
          omega)]
        simp
      · have hlt : pos < c := by omega
        rw [show bucket_scan cur base (cnt + 1) pos (c :: cs') =
            cur.getD (base + pos) 0 ::
              bucket_scan cur base cnt (pos + 1) (c :: cs') from by
          rw [bucket_scan]; simp [fun h : c = pos => hc h]]
        rw [List.cons_append]
        rw [show ∀ sb : List K, recon_children (cnt + 1) pos
              ((c :: cs').map (fun x => (x, cur.getD (base + x) 0)))
              (cur.getD (base + pos) 0 :: sb) =
            (recon_children cnt (pos + 1)
                ((c :: cs').map (fun x => (x, cur.getD (base + x) 0))) sb).map
              (fun r => (cur.getD (base + pos) 0 :: r.1, r.2)) from by
          intro sb
          simp [recon_children, hc]]
        rw [ih (pos + 1) (c :: cs') rest hs (fun x hx => by
          rcases List.mem_cons.mp hx with hx | hx
          · omega
          · have h1 := hhead x hx
            have h2 := hb x (List.mem_cons_of_mem c hx)
            omega)]
        simp

/-! Grouping characterizations -/

theorem group_insert_pairing {arity : Nat} (F : Nat → K) (k c : Nat) (v : K)
    (hv : v = F (k * arity + c)) :
    ∀ m : List (Nat × List Nat),
      group_insert k (c, v)
          (m.map (fun g => (g.1, g.2.map (fun c' => (c', F (g.1 * arity + c')))))) =
        (group_insert k c m).map
          (fun g => (g.1, g.2.map (fun c' => (c', F (g.1 * arity + c')))))
  | [] => by simp [group_insert, hv]
  | (q, xs) :: rest => by
    simp only [List.map_cons, group_insert]
    by_cases h1 : k < q
    · simp [h1, hv]
    · rw [if_neg h1, if_neg h1]
      by_cases h2 : k = q
      · rw [if_pos h2, if_pos h2]
        subst h2
        simp [hv]
      · rw [if_neg h2, if_neg h2]
        simp only [List.map_cons, List.cons.injEq, true_and]
        exact group_insert_pairing F k c v hv rest

theorem group_by_parent_pairing (arity : Nat) (F : Nat → K) (I : List Nat) :
    group_by_parent arity (I.map (fun i => (i, F i))) =
      (group_idx_by_parent arity I).map
        (fun g => (g.1, g.2.map (fun c' => (c', F (g.1 * arity + c'))))) := by
  unfold group_by_parent group_idx_by_parent
  rw [List.foldl_map]
  suffices h : ∀ (acc : List (Nat × List Nat)),
      I.foldl (fun m i => group_insert (i / arity) (i % arity, F i) m)
          (acc.map (fun g => (g.1, g.2.map (fun c' => (c', F (g.1 * arity + c')))))) =
        (I.foldl (fun m i => group_insert (i / arity) (i % arity) m) acc).map
          (fun g => (g.1, g.2.map (fun c' => (c', F (g.1 * arity + c'))))) by
    have := h []
    simpa using this
  induction I with
  | nil => intro acc; rfl
  | cons i rest ih =>
    intro acc
    simp only [List.foldl_cons]
    rw [group_insert_pairing F (i / arity) (i % arity) (F i)
      (by rw [Nat.mul_comm, Nat.div_add_mod]) acc]
    exact ih _

theorem group_insert_on_keyed {α : Type} (k : Nat) (x : α) (Fb : Nat → List α) :
    ∀ (SD : List Nat), SD.Pairwise (· < ·) → (k ∉ SD → Fb k = []) →
      group_insert k x (SD.map (fun p => (p, Fb p))) =
        (insert_sorted_unique k SD).map
          (fun p => (p, if p = k then Fb p ++ [x] else Fb p))
  | [], _, hk => by
    simp [group_insert, insert_sorted_unique, hk (by simp)]
  | q :: rest, hSD, hk => by
    obtain ⟨hq, hrest⟩ := List.pairwise_cons.mp hSD
    simp only [List.map_cons, group_insert, insert_sorted_unique]
    by_cases h1 : k < q
    · rw [if_pos h1, if_pos h1]
      have hknotin : k ∉ q :: rest := by
        intro hmem
        rcases List.mem_cons.mp hmem with h | h
        · omega
        · have := hq k h
          omega
      simp only [List.map_cons, hk hknotin, List.nil_append,
        if_pos rfl]
      have hqne : ¬ q = k := by omega
      rw [if_neg hqne]
      congr 1
      congr 1
      apply List.map_congr_left
      intro p hp
      have : ¬ p = k := by
        have := hq p hp
        omega
      rw [if_neg this]
    · rw [if_neg h1, if_neg h1]
      by_cases h2 : k = q
      · rw [if_pos h2, if_pos h2]
        simp only [List.map_cons]
        rw [if_pos h2.symm]
        congr 1
        apply List.map_congr_left
        intro p hp
        have hpne : ¬ p = k := by
          have := hq p hp
          omega
        rw [if_neg hpne]
      · rw [if_neg h2, if_neg h2]
        simp only [List.map_cons]
        have hqne : ¬ q = k := fun h => h2 h.symm
        rw [if_neg hqne]
        have hkr : k ∉ rest → Fb k = [] := by
          intro hmem
          apply hk
          intro hcon
          rcases List.mem_cons.mp hcon with h | h
          · exact h2 h
          · exact hmem h
        rw [group_insert_on_keyed k x Fb rest hrest hkr]

theorem sort_dedup_append_singleton (l : List Nat) (a : Nat) :
    sort_dedup (l ++ [a]) = insert_sorted_unique a (sort_dedup l) := by
  unfold sort_dedup
  rw [List.foldl_append]
  rfl

theorem group_idx_append_singleton (arity : Nat) (I : List Nat) (i : Nat) :
    group_idx_by_parent arity (I ++ [i]) =
      group_insert (i / arity) (i % arity) (group_idx_by_parent arity I) := by
  unfold group_idx_by_parent
  rw [List.foldl_append]
  rfl

theorem group_idx_eq_filter (arity : Nat) (I : List Nat) :
    group_idx_by_parent arity I =
      (sort_dedup (I.map (· / arity))).map (fun p =>
        (p, (I.filter (fun j => j / arity = p)).map (· % arity))) := by
  induction I using List.reverseRecOn with
  | nil => rfl
  | append_singleton I i ih =>
    rw [group_idx_append_singleton, ih]
    simp only [List.map_append, List.map_cons, List.map_nil]
    rw [sort_dedup_append_singleton]
    rw [group_insert_on_keyed (i / arity) (i % arity) _ _
      (sort_dedup_pairwise _)
      (fun hnot => by
        rw [List.map_eq_nil]
        rw [List.filter_eq_nil]
        intro j hj
        simp only [decide_eq_true_eq]
        intro hcon
        exact hnot (mem_sort_dedup.mpr (by
          rw [← hcon]
          exact List.mem_map_of_mem (· / arity) hj)))]
    apply List.map_congr_left
    intro p hp
    by_cases hpk : p = i / arity
    · rw [if_pos hpk]
      rw [List.filter_append]
      simp only [List.filter_cons, List.filter_nil]
      rw [hpk]
      simp only [decide_eq_true_eq, if_pos rfl]
      rw [List.map_append]
      rfl
    · rw [if_neg hpk]
      rw [List.filter_append]
      simp only [List.filter_cons, List.filter_nil]
      have : ¬ (i / arity = p) := fun h => hpk h.symm
      simp only [decide_eq_true_eq, this, if_false]
      rw [List.append_nil]

/-! Tree construction facts -/

theorem mt_levels_head (hds : DsLabel → List K → K) (arity lbl : Nat) :
    ∀ (fuel level : Nat) (cur : List K) (Ls : List (List K)),
      mt_levels hds arity lbl fuel level cur = some Ls → ∃ tl, Ls = cur :: tl
  | 0, _, _, _, h => by simp [mt_levels] at h
  | fuel + 1, level, cur, Ls, h => by
    simp only [mt_levels] at h
    by_cases hl : cur.length ≤ 1
    · rw [if_pos hl] at h
      exact ⟨[], (Option.some.inj h).symm⟩
    · rw [if_neg hl] at h
      obtain ⟨a, _, hfa⟩ := Option.map_eq_some'.mp h
      exact ⟨a, hfa.symm⟩

theorem getLastD_indep {α : Type} :
    ∀ (l : List α) (d d' : α), l ≠ [] → l.getLastD d = l.getLastD d'
  | [], _, _, h => absurd rfl h
  | [_], _, _, _ => rfl
  | _ :: _ :: _, _, _, _ => by
    simp only [List.getLastD_cons]

theorem map_zip_map {α β γ : Type} (f : α → β) (g : α → γ) :
    ∀ l : List α, (l.map f).zip (l.map g) = l.map (fun a => (f a, g a))
  | [] => rfl
  | a :: l => by
    simp only [List.map_cons, List.zip_cons_cons, map_zip_map f g l]

theorem range'0_map_getD_eq_drop_take (cur : List K) (base cnt : Nat)
    (h : base + cnt ≤ cur.length) :
    (List.range' 0 cnt).map (fun j => cur.getD (base + j) 0) =
      (cur.drop base).take cnt := by
  apply List.ext_getElem
  · simp only [List.length_map, List.length_range', List.length_take,
      List.length_drop]
    omega
  · intro j h1 h2
    simp only [List.getElem_map, List.getElem_range', one_mul, Nat.zero_add]
    rw [List.getElem_take, List.getElem_drop]
    have hj : j < cnt := by simpa using h1
    rw [List.getD_eq_getElem _ _ (by omega)]

theorem ok_width_le_64 {arity t : Nat} (h : ok_width arity t = true) :
    arity ≤ 64 := by
  simp only [ok_width, Bool.or_eq_true, Bool.and_eq_true, decide_eq_true_eq] at h
  omega

theorem open_levels_lengths (arity : Nat) :
    ∀ (Ls : List (List K)) (SD : List Nat),
      (open_levels arity Ls SD).1.length = (open_levels arity Ls SD).2.length
  | [], _ => rfl
  | [_], _ => rfl
  | _ :: b :: rest, SD => by
    simp only [open_levels, List.length_cons]
    rw [open_levels_lengths arity (b :: rest) (sort_dedup (SD.map (· / arity)))]

theorem pairwise_mod_of_filter (arity p : Nat) :
    ∀ (l : List Nat), l.Pairwise (· < ·) →
      ((l.filter (fun j => j / arity = p)).map (· % arity)).Pairwise (· < ·)
  | [], _ => by simp
  | a :: rest, h => by
    obtain ⟨ha, hrest⟩ := List.pairwise_cons.mp h
    rw [List.filter_cons]
    by_cases hap : a / arity = p
    · rw [if_pos (by simpa using hap)]
      rw [List.map_cons]
      refine List.pairwise_cons.mpr ⟨?_, pairwise_mod_of_filter arity p rest hrest⟩
      intro c hc
      obtain ⟨j, hjf, hjc⟩ := List.mem_map.mp hc
      have hjmem := List.mem_filter.mp hjf
      have hjp : j / arity = p := by simpa using hjmem.2
      have haj : a < j := ha j hjmem.1
      have hda := Nat.div_add_mod a arity
      have hdj := Nat.div_add_mod j arity
      rw [hap] at hda
      rw [hjp] at hdj
      subst hjc
      set A := arity * p with hA
      omega
    · rw [if_neg (by simpa using hap)]
      exact pairwise_mod_of_filter arity p rest hrest

/-! The sibling stream of one opened level is consumed exactly by the
verifier's per-group child reconstruction. -/

theorem verify_groups_scan (nodeH : Nat → Nat → List K → K) (arity level : Nat)
    (cur : List K) (cnt : Nat → Nat) (csf : Nat → List Nat) :
    ∀ (P : List Nat) (rest : List K),
      (∀ p ∈ P, (csf p).Pairwise (· < ·)) →
      (∀ p ∈ P, ∀ c ∈ csf p, c < cnt p) →
      (∀ p ∈ P, 1 ≤ cnt p ∧ cnt p ≤ arity ∧ cnt p < 256) →
      verify_groups nodeH arity level
          (P.map (fun p => ((p, (csf p).map (fun c => (c, cur.getD (p * arity + c) 0))),
            cnt p % 256)))
          ((P.map (fun p => bucket_scan cur (p * arity) (cnt p) 0 (csf p))).flatten ++ rest)
        = .ok (P.map (fun p => (p,
            nodeH level p ((List.range' 0 (cnt p)).map (fun j => cur.getD (p * arity + j) 0)))),
          rest)
  | [], rest, _, _, _ => by simp [verify_groups]
  | p :: P', rest, hpw, hbd, hct => by
    have hmem := List.mem_cons_self p P'
    obtain ⟨hc1, hcar, hc256⟩ := hct p hmem
    have hmod : cnt p % 256 = cnt p := Nat.mod_eq_of_lt hc256
    have hguard : ¬ (cnt p = 0 ∨ arity < cnt p) := by omega
    have hkeys : ((csf p).map (fun c => (c, cur.getD (p * arity + c) 0))).Pairwise
        (fun x y => x.1 < y.1) := List.pairwise_map.mpr (hpw p hmem)
    have hsort := sort_by_key_of_pairwise _ hkeys
    have hrec := recon_scan cur (p * arity) (cnt p) 0 (csf p)
      ((P'.map (fun q => bucket_scan cur (q * arity) (cnt q) 0 (csf q))).flatten ++ rest)
      (hpw p hmem) (fun c hc => ⟨Nat.zero_le c, by
        have := hbd p hmem c hc
        omega⟩)
    have hih := verify_groups_scan nodeH arity level cur cnt csf P' rest
      (fun q hq => hpw q (List.mem_cons_of_mem p hq))
      (fun q hq => hbd q (List.mem_cons_of_mem p hq))
      (fun q hq => hct q (List.mem_cons_of_mem p hq))
    simp only [List.map_cons, List.flatten_cons, List.append_assoc, hmod]
    simp only [verify_groups]
    rw [if_neg hguard]
    simp only [hsort, hrec, hih]

/-! The level loop of `verify_many_ds` accepts the output of
`open_union_of_paths` on every frontier drawn from the committed tree. -/

theorem verify_levels_open (hds : DsLabel → List K → K) (arity lbl : Nat)
    (h2 : 2 ≤ arity) (h64 : arity ≤ 64) :
    ∀ (fuel level : Nat) (cur : List K) (Ls : List (List K)),
      mt_levels hds arity lbl fuel level cur = some Ls →
      ∀ SD : List Nat, SD.Pairwise (· < ·) → SD ≠ [] →
        (∀ i ∈ SD, i < cur.length) →
        verify_levels (fun lv p children => hds ⟨arity, lv, p, lbl⟩ children) arity
            level ((open_levels arity Ls SD).1.zip (open_levels arity Ls SD).2)
            (SD.map (fun i => (i, cur.getD i 0)))
          = .ok [(0, (Ls.getLastD []).getD 0 0)] := by
  intro fuel
  induction fuel with
  | zero =>
    intro level cur Ls h
    simp [mt_levels] at h
  | succ fuel ih =>
    intro level cur Ls hml SD hSDp hSDne hSDb
    simp only [mt_levels] at hml
    by_cases hlen : cur.length ≤ 1
    · rw [if_pos hlen] at hml
      have hLs : Ls = [cur] := (Option.some.inj hml).symm
      subst hLs
      have h0 : SD = [0] := by
        cases SD with
        | nil => exact absurd rfl hSDne
        | cons a tl =>
          have ha : a = 0 := by
            have := hSDb a (List.mem_cons_self a tl)
            omega
          subst ha
          cases tl with
          | nil => rfl
          | cons b tl2 =>
            have hb := hSDb b (by simp)
            have hab := (List.pairwise_cons.mp hSDp).1 b (by simp)
            omega
      subst h0
      simp [open_levels, verify_levels, List.getLastD]
    · rw [if_neg hlen] at hml
      obtain ⟨Ls', hLs', hcons⟩ := Option.map_eq_some'.mp hml
      subst hcons
      obtain ⟨t2, ht2⟩ := mt_levels_head hds arity lbl fuel (level + 1)
        (level_up hds arity lbl level cur) Ls' hLs'
      subst ht2
      set next := level_up hds arity lbl level cur with hnextdef
      set SDP := sort_dedup (SD.map (· / arity)) with hSDPdef
      have harity1 : 1 ≤ arity := by omega
      have hSDPpw : SDP.Pairwise (· < ·) := sort_dedup_pairwise _
      have hSDPne : SDP ≠ [] := sort_dedup_ne_nil (by
        intro hmap
        exact hSDne (List.map_eq_nil_iff.mp hmap))
      have hplt : ∀ p ∈ SDP, p * arity < cur.length := by
        intro p hp
        obtain ⟨i, hi, hip⟩ := List.mem_map.mp (mem_sort_dedup.mp hp)
        have h1 : i / arity * arity ≤ i := Nat.div_mul_le_self i arity
        rw [hip] at h1
        exact Nat.lt_of_le_of_lt h1 (hSDb i hi)
      have hnextlen : ∀ p ∈ SDP, p < next.length := by
        intro p hp
        rw [hnextdef, level_up_length]
        exact (chunksOf_length_iff arity harity1 cur p).mpr (hplt p hp)
      have hcnt : ∀ p ∈ SDP, 1 ≤ child_count_at arity cur.length p ∧
          child_count_at arity cur.length p ≤ arity ∧
          child_count_at arity cur.length p < 256 := by
        intro p hp
        have h := hplt p hp
        simp only [child_count_at]
        set A := p * arity with hA
        omega
      have hcspw : ∀ p ∈ SDP,
          ((SD.filter (fun j => j / arity = p)).map (· % arity)).Pairwise (· < ·) :=
        fun p _ => pairwise_mod_of_filter arity p SD hSDp
      have hcsbd : ∀ p ∈ SDP,
          ∀ c ∈ (SD.filter (fun j => j / arity = p)).map (· % arity),
            c < child_count_at arity cur.length p := by
        intro p hp c hc
        obtain ⟨j, hjf, hjc⟩ := List.mem_map.mp hc
        have hjmem := List.mem_filter.mp hjf
        have hjp : j / arity = p := by simpa using hjmem.2
        have hjlen := hSDb j hjmem.1
        have hdm := Nat.div_add_mod j arity
        rw [hjp] at hdm
        have hmlt : j % arity < arity := Nat.mod_lt j (by omega)
        subst hjc
        simp only [child_count_at]
        rw [Nat.mul_comm arity p] at hdm
        set A := p * arity with hA
        omega
      have hgroups : group_by_parent arity (SD.map (fun i => (i, cur.getD i 0))) =
          SDP.map (fun p => (p,
            ((SD.filter (fun j => j / arity = p)).map (· % arity)).map
              (fun c => (c, cur.getD (p * arity + c) 0)))) := by
        rw [group_by_parent_pairing arity (fun i => cur.getD i 0) SD,
          group_idx_eq_filter, List.map_map]
        rfl
      have hol1 : (open_level arity cur SD).1 =
          (SDP.map (fun p =>
            bucket_scan cur (p * arity) (child_count_at arity cur.length p) 0
              ((SD.filter (fun j => j / arity = p)).map (· % arity)))).flatten := by
        show ((group_idx_by_parent arity SD).map (fun g =>
            bucket_scan cur (g.1 * arity) (child_count_at arity cur.length g.1) 0
              (sort_nat g.2))).flatten = _
        rw [group_idx_eq_filter, List.map_map]
        refine congrArg List.flatten (List.map_congr_left ?_)
        intro p hp
        show bucket_scan cur (p * arity) (child_count_at arity cur.length p) 0
            (sort_nat ((SD.filter (fun j => j / arity = p)).map (· % arity))) = _
        rw [sort_nat_of_pairwise _ (pairwise_mod_of_filter arity p SD hSDp)]
      have hol2 : (open_level arity cur SD).2 =
          SDP.map (fun p => child_count_at arity cur.length p % 256) := by
        show (group_idx_by_parent arity SD).map (fun g =>
            child_count_at arity cur.length g.1 % 256) = _
        rw [group_idx_eq_filter, List.map_map]
        rfl
      have hzip : (SDP.map (fun p => (p,
            ((SD.filter (fun j => j / arity = p)).map (· % arity)).map
              (fun c => (c, cur.getD (p * arity + c) 0))))).zip
            (SDP.map (fun p => child_count_at arity cur.length p % 256)) =
          SDP.map (fun p => ((p,
            ((SD.filter (fun j => j / arity = p)).map (· % arity)).map
              (fun c => (c, cur.getD (p * arity + c) 0))),
            child_count_at arity cur.length p % 256)) :=
        map_zip_map _ _ SDP
      have hvg : verify_groups (fun lv p children => hds ⟨arity, lv, p, lbl⟩ children)
          arity level
          (SDP.map (fun p => ((p,
            ((SD.filter (fun j => j / arity = p)).map (· % arity)).map
              (fun c => (c, cur.getD (p * arity + c) 0))),
            child_count_at arity cur.length p % 256)))
          ((SDP.map (fun p =>
            bucket_scan cur (p * arity) (child_count_at arity cur.length p) 0
              ((SD.filter (fun j => j / arity = p)).map (· % arity)))).flatten ++ []) =
          .ok (SDP.map (fun p => (p, hds ⟨arity, level, p, lbl⟩
            ((List.range' 0 (child_count_at arity cur.length p)).map
              (fun j => cur.getD (p * arity + j) 0)))), []) :=
        verify_groups_scan (fun lv p children => hds ⟨arity, lv, p, lbl⟩ children)
          arity level cur (child_count_at arity cur.length)
          (fun p => (SD.filter (fun j => j / arity = p)).map (· % arity))
          SDP [] hcspw hcsbd hcnt
      rw [List.append_nil] at hvg
      have hih := ih (level + 1) next (next :: t2) hLs' SDP hSDPpw hSDPne hnextlen
      have hnewpairs : SDP.map (fun p => (p, hds ⟨arity, level, p, lbl⟩
            ((List.range' 0 (child_count_at arity cur.length p)).map
              (fun j => cur.getD (p * arity + j) 0)))) =
          SDP.map (fun i => (i, next.getD i 0)) := by
        apply List.map_congr_left
        intro p hp
        have hplt' := hplt p hp
        have hchild : (List.range' 0 (child_count_at arity cur.length p)).map
            (fun j => cur.getD (p * arity + j) 0) = (chunksOf arity cur).getD p [] := by
          rw [range'0_map_getD_eq_drop_take cur (p * arity)
            (child_count_at arity cur.length p)
            (by
              simp only [child_count_at]
              set A := p * arity with hA
              omega)]
          rw [chunksOf_getD arity harity1 cur p hplt']
          rw [List.take_eq_take]
          simp only [List.length_drop, child_count_at]
          set A := p * arity with hA
          omega
        rw [hchild, hnextdef,
          level_up_getD hds arity lbl level cur p
            ((chunksOf_length_iff arity harity1 cur p).mpr hplt')]
      have hng : ¬ (arity = 0 ∧ SD.map (fun i => (i, cur.getD i 0)) ≠ []) := by
        rintro ⟨h0, -⟩
        omega
      have hlast : (cur :: next :: t2).getLastD ([] : List K) =
          (next :: t2).getLastD [] := by
        rw [List.getLastD_cons]
        exact getLastD_indep (next :: t2) cur [] (List.cons_ne_nil _ _)
      have hOL1 : (open_levels arity (cur :: next :: t2) SD).1 =
          (open_level arity cur SD).1 :: (open_levels arity (next :: t2) SDP).1 := rfl
      have hOL2 : (open_levels arity (cur :: next :: t2) SD).2 =
          (open_level arity cur SD).2 :: (open_levels arity (next :: t2) SDP).2 := rfl
      rw [hOL1, hOL2, List.zip_cons_cons]
      simp only [verify_levels]
      rw [if_neg hng]
      rw [hgroups, hol1, hol2]
      have hlen2 : ¬ ((SDP.map (fun p => (p,
            ((SD.filter (fun j => j / arity = p)).map (· % arity)).map
              (fun c => (c, cur.getD (p * arity + c) 0))))).length ≠
          (SDP.map (fun p => child_count_at arity cur.length p % 256)).length) := by
        simp
      rw [if_neg hlen2]
      rw [hzip, hvg]
      simp only []
      rw [if_neg (show ¬ (([] : List K) ≠ []) from by simp)]
      rw [hnewpairs, hih, hlast]

/-- C6: for every non-empty leaf vector committed with `MerkleTree::new` under
a supported arity and matching Poseidon width, and every non-empty in-range
index list in any order, `verify_many_ds` accepts the root, the selected
leaves and the `open_union_of_paths` proof — including trees whose last
parent at some level has fewer than `arity` children. -/
theorem verify_many_ds_roundtrip (hds : DsLabel → List K → K)
    (v : List K) (I : List Nat) (arity t lbl : Nat)
    (h2 : 2 ≤ arity) (hIne : I ≠ []) (hIb : ∀ i ∈ I, i < v.length)
    (tree : MerkleTreeE K) (htree : mt_new hds v arity t lbl = some tree)
    (proof : MerkleProofU K) (hproof : open_many tree I = some proof) :
    verify_many_ds hds tree.root I (I.map (fun i => v.getD i 0)) proof lbl t
      = some true := by
  rw [mt_new] at htree
  by_cases hv : v = []
  · rw [if_pos hv] at htree
    exact absurd htree (by simp)
  rw [if_neg hv] at htree
  by_cases hok : ok_width arity t = true
  · rw [if_neg (not_not_intro hok)] at htree
    cases hLsc : mt_levels hds arity lbl (v.length + 1) 0 v with
    | none =>
      rw [hLsc] at htree
      simp at htree
    | some Ls =>
      rw [hLsc] at htree
      simp only [] at htree
      cases hrc : (Ls.getLastD []).head? with
      | none =>
        rw [hrc] at htree
        simp at htree
      | some r =>
        rw [hrc] at htree
        simp only [Option.some.injEq] at htree
        subst htree
        rw [open_many] at hproof
        rw [if_neg hIne] at hproof
        simp only [Option.some.injEq] at hproof
        subst hproof
        have hcoll : collectSome ((sort_dedup I).map (fun i =>
            map_find? i (map_of_pairs (I.zip (I.map (fun i => v.getD i 0)))))) =
            some ((sort_dedup I).map (fun i => v.getD i 0)) :=
          collectSome_map_some (fun i => v.getD i 0) (fun i hi =>
            map_find?_aligned (fun i => v.getD i 0) I i (mem_sort_dedup.mp hi))
        have hzipped : (sort_dedup I).zip ((sort_dedup I).map (fun i => v.getD i 0)) =
            (sort_dedup I).map (fun i => (i, v.getD i 0)) :=
          zip_map_self (fun i => v.getD i 0) (sort_dedup I)
        have hVL := verify_levels_open hds arity lbl h2 (ok_width_le_64 hok)
          (v.length + 1) 0 v Ls hLsc (sort_dedup I) (sort_dedup_pairwise I)
          (sort_dedup_ne_nil hIne) (fun i hi => hIb i (mem_sort_dedup.mp hi))
        have holen := open_levels_lengths arity Ls (sort_dedup I)
        have hvalr : (Ls.getLastD []).getD 0 0 = r := by
          cases hLL : Ls.getLastD ([] : List K) with
          | nil =>
            rw [hLL] at hrc
            simp at hrc
          | cons a tl =>
            rw [hLL] at hrc
            simp only [List.head?_cons, Option.some.injEq] at hrc
            simp [hrc]
        have hg1 : ¬ (I = [] ∨ I.length ≠ (I.map (fun i => v.getD i 0)).length) := by
          rintro (h | h)
          · exact hIne h
          · exact h (by simp)
        have hg2 : ¬ (sort_dedup I ≠ sort_dedup I) := by simp
        have hg3 : ¬ ((open_levels arity Ls (sort_dedup I)).1.length ≠
            (open_levels arity Ls (sort_dedup I)).2.length) := by simp [holen]
        have hg4 : ¬ ¬ (ok_width arity t = true) := not_not_intro hok
        simp only [verify_many_ds, verify_body]
        rw [if_neg hg1, if_neg hg2, if_neg hg3, if_neg hg4]
        rw [hcoll]
        simp only []
        rw [hzipped, hVL]
        simp only []
        rw [hvalr]
        simp
  · rw [if_pos hok] at htree
    exact absurd htree (by simp)

/-- Concrete round trip: the three-leaf arity-2 tree under the constant-zero
hash oracle, opened at the unordered index set `{2, 0}`. -/
theorem verify_many_ds_roundtrip_witness :
    verify_many_ds (fun _ _ => (0 : ZMod 5)) 0 [2, 0] [3, 1]
      ⟨[0, 2], [[2], []], [[2, 1], [2]], 2⟩ 0 9 = some true :=
  verify_many_ds_roundtrip (fun _ _ => (0 : ZMod 5)) [1, 2, 3] [2, 0] 2 9 0
    (by decide) (by decide) (by decide)
    ⟨[[1, 2, 3], [0, 0], [0]], 0, 2, 9, 0⟩ (by rfl)
    ⟨[0, 2], [[2], []], [[2, 1], [2]], 2⟩ (by rfl)

end Theorems
